import Mathlib

/-!
Verification of the gis-shapefile core library against its specification.

The C++ sources are shallowly embedded: `double` values are modelled as
exact rationals (`ℚ`) — all comparisons, `min`/`max` and the affine
arithmetic appearing in the claims are exact on the concrete inputs used.
Strings are modelled as lists of byte values (`List Nat`), matching the
byte-oriented `std::string` operations of the source.
-/

/-- 2D point, from `include/gis/geometry.h` (`struct Point2D`). -/
structure Point2D where
  x : ℚ
  y : ℚ
deriving DecidableEq, Repr

instance : Inhabited Point2D := ⟨⟨0, 0⟩⟩

/-- Axis-aligned bounding box, from `include/gis/geometry.h`
(`struct BoundingBox`); the default constructor zero-initialises. -/
structure BoundingBox where
  min_x : ℚ
  min_y : ℚ
  max_x : ℚ
  max_y : ℚ
deriving DecidableEq, Repr

instance : Inhabited BoundingBox := ⟨⟨0, 0, 0, 0⟩⟩

/-- `BoundingBox::contains` from `src/shapefile/geometry.cpp`. -/
def BoundingBox.contains (b : BoundingBox) (point : Point2D) : Bool :=
  decide (point.x ≥ b.min_x) && decide (point.x ≤ b.max_x) &&
  decide (point.y ≥ b.min_y) && decide (point.y ≤ b.max_y)

/-- `BoundingBox::intersects` from `src/shapefile/geometry.cpp`. -/
def BoundingBox.intersects (b other : BoundingBox) : Bool :=
  !(decide (other.min_x > b.max_x) || decide (other.max_x < b.min_x) ||
    decide (other.min_y > b.max_y) || decide (other.max_y < b.min_y))

/-- `BoundingBox::area` from `include/gis/geometry.h`. -/
def BoundingBox.area (b : BoundingBox) : ℚ :=
  (b.max_x - b.min_x) * (b.max_y - b.min_y)

/-- The four-line `min`/`max` bounds-update pattern used throughout
`src/spatial/spatial_index.cpp` (leaf update, `calculateEnlargement`, …). -/
def BoundingBox.expand (b other : BoundingBox) : BoundingBox :=
  ⟨min b.min_x other.min_x, min b.min_y other.min_y,
   max b.max_x other.max_x, max b.max_y other.max_y⟩

/-- `std::numeric_limits<double>::max()`, exactly. -/
def DBL_MAX : ℚ := (2 - (2 : ℚ)⁻¹ ^ 52) * 2 ^ 1023

/-- `std::numeric_limits<double>::lowest()`, exactly. -/
def DBL_LOWEST : ℚ := -DBL_MAX

/-- The ray-casting inner lambda `pointInRing` of
`PolygonGeometry::contains` (`src/shapefile/geometry.cpp:146-162`):
`j` trails `i` by one position, starting at the last vertex. -/
def pointInRing (ring : List Point2D) (point : Point2D) : Bool :=
  (List.range ring.length).foldl
    (fun inside i =>
      let j := if i = 0 then ring.length - 1 else i - 1
      let pi := ring.getD i default
      let pj := ring.getD j default
      if (decide (pi.y > point.y) != decide (pj.y > point.y)) &&
         decide (point.x < (pj.x - pi.x) * (point.y - pi.y) / (pj.y - pi.y) + pi.x)
      then !inside else inside)
    false

/-- Polygon geometry: the ring list of `PolygonGeometry`
(`include/gis/geometry.h`). -/
structure PolygonGeometry where
  rings : List (List Point2D)
deriving DecidableEq, Repr

/-- `PolygonGeometry::contains` from `src/shapefile/geometry.cpp:133-191`:
empty ring list contains nothing; otherwise the point must be inside the
first (outer) ring and inside none of the remaining (hole) rings. -/
def PolygonGeometry.contains (poly : PolygonGeometry) (point : Point2D) : Bool :=
  match poly.rings with
  | [] => false
  | outer :: holes =>
    if !pointInRing outer point then false
    else if holes.any (fun ring => pointInRing ring point) then false
    else true

/-- Fold computing bounds of a point collection starting from the
`DBL_MAX` / `lowest` sentinels, as in `PolylineGeometry::getBounds` and
`PolygonGeometry::getBounds` (`src/shapefile/geometry.cpp`). -/
def boundsOfPoints (pts : List Point2D) : BoundingBox :=
  pts.foldl
    (fun b p => ⟨min b.min_x p.x, min b.min_y p.y, max b.max_x p.x, max b.max_y p.y⟩)
    ⟨DBL_MAX, DBL_MAX, DBL_LOWEST, DBL_LOWEST⟩

/-- In-memory geometry variant (`Geometry` class hierarchy of
`include/gis/geometry.h`, flattened to a tagged union). -/
inductive Geometry where
  | point (p : Point2D)
  | polyline (parts : List (List Point2D))
  | polygon (rings : List (List Point2D))
deriving DecidableEq, Repr

/-- `getBounds` of each geometry class (`src/shapefile/geometry.cpp`):
a point yields a degenerate box; empty polylines/polygons yield the
default-constructed box. -/
def Geometry.getBounds : Geometry → BoundingBox
  | .point p => ⟨p.x, p.y, p.x, p.y⟩
  | .polyline parts =>
    if parts = [] then default else boundsOfPoints parts.flatten
  | .polygon rings =>
    if rings = [] then default else boundsOfPoints rings.flatten

/-! ## R-tree (`src/spatial/spatial_index.cpp`)

The node struct carries an `is_leaf` flag with both a `children` and a
`data_indices` vector; only one is populated, so the embedding is a tagged
union.  The imperative splitting, which propagates through parent pointers
before the recursive `insertHelper` frames unwind, is rendered as the
standard functional equivalent: insertion into a subtree returns the node
plus an optional new sibling; the parent appends the sibling at the end of
its child list (as `splitNode` does via `parent->children.push_back`) and
splits itself when over capacity. -/

inductive RTreeNode where
  | leaf (bounds : BoundingBox) (data_indices : List Nat)
  | internal (bounds : BoundingBox) (children : List RTreeNode)
deriving Repr

instance : Inhabited RTreeNode := ⟨.leaf default []⟩

/-- The `bounds` field of a node. -/
def RTreeNode.bounds : RTreeNode → BoundingBox
  | .leaf b _ => b
  | .internal b _ => b

/-- `RTree::calculateEnlargement`. -/
def calculateEnlargement (existing new_bounds : BoundingBox) : ℚ :=
  (existing.expand new_bounds).area - existing.area

/-- The best-child scan of `RTree::insertHelper` (internal-node branch):
starting from `min_enlargement = DBL_MAX` and no child, each child with a
strictly smaller enlargement becomes the candidate. -/
def bestChildStep (cs : List RTreeNode) (bounds : BoundingBox)
    (acc : Option (Fin cs.length) × ℚ) (i : Fin cs.length) :
    Option (Fin cs.length) × ℚ :=
  let enlargement := calculateEnlargement (cs.get i).bounds bounds
  if enlargement < acc.2 then (some i, enlargement) else acc

/-- The scan itself: fold the comparison over the children in order. -/
def bestChildIdx (cs : List RTreeNode) (bounds : BoundingBox) : Option (Fin cs.length) :=
  ((List.finRange cs.length).foldl (bestChildStep cs bounds) (none, DBL_MAX)).1

/-- `RTree::updateLeafNodeBounds`: recompute a leaf's bounds from the
in-range entries of the external bbox array; when no entry is in range
(in particular for an empty leaf) the bounds are left unchanged. -/
def leafBoundsStep (obs : List BoundingBox) (acc : Option BoundingBox) (idx : Nat) :
    Option BoundingBox :=
  if idx < obs.length then
    match acc with
    | none => some (obs.getD idx default)
    | some b => some (b.expand (obs.getD idx default))
  else acc

/-- The recomputation itself: fold the update over the entries, falling
back to the previous bounds when nothing was accumulated. -/
def leafBoundsFrom (obs : List BoundingBox) (old : BoundingBox) (idxs : List Nat) : BoundingBox :=
  (idxs.foldl (leafBoundsStep obs) none).getD old

/-- `RTree::updateInternalNodeBounds`: recompute an internal node's bounds
as the running `expand` of its children's bounds; empty child list leaves
the bounds unchanged. -/
def internalBoundsFrom (old : BoundingBox) (cs : List RTreeNode) : BoundingBox :=
  match cs with
  | [] => old
  | c :: rest => rest.foldl (fun b c2 => b.expand c2.bounds) c.bounds

/-- Leaf half of `RTree::splitNode`: keep the first `size/2` entries,
move the rest to a new sibling (whose bounds start default-constructed),
then recompute both bounds. -/
def splitLeaf (obs : List BoundingBox) (old : BoundingBox) (idxs : List Nat) :
    RTreeNode × Option RTreeNode :=
  let split_point := idxs.length / 2
  let left := idxs.take split_point
  let right := idxs.drop split_point
  (.leaf (leafBoundsFrom obs old left) left,
   some (.leaf (leafBoundsFrom obs default right) right))

/-- Internal half of `RTree::splitNode`: keep the first `size/2` children,
move the rest to a new sibling, then recompute both bounds. -/
def splitInternal (old : BoundingBox) (cs : List RTreeNode) :
    RTreeNode × Option RTreeNode :=
  let split_point := cs.length / 2
  let left := cs.take split_point
  let right := cs.drop split_point
  (.internal (internalBoundsFrom old left) left,
   some (.internal (internalBoundsFrom default right) right))

mutual

/-- `RTree::insertHelper` (with the `splitNode` propagation made
functional).  Leaf: append the index, grow the bounds (first entry copies
the inserted box), split when over `max_entries`.  Internal: insert into
the least-enlargement child (`insertIntoChild` replaces that child in
place), append any new sibling at the end of the child list, recompute
bounds, split when over `max_entries`.  When there are no children the
entry is silently dropped, as in the source (`best_child` stays null). -/
def insertHelper (obs : List BoundingBox) (maxE : Nat) (bounds : BoundingBox)
    (dataIndex : Nat) : RTreeNode → RTreeNode × Option RTreeNode
  | .leaf nb idxs =>
    let idxs2 := idxs ++ [dataIndex]
    let nb2 := if idxs2.length = 1 then bounds else nb.expand bounds
    if idxs2.length > maxE then splitLeaf obs nb2 idxs2
    else (.leaf nb2 idxs2, none)
  | .internal nb cs =>
    match bestChildIdx cs bounds with
    | none => (.internal nb cs, none)
    | some j =>
      match insertIntoChild obs maxE bounds dataIndex cs j.1 with
      | (cs1, none) => (.internal (internalBoundsFrom nb cs1) cs1, none)
      | (cs1, some extra) =>
        let cs2 := cs1 ++ [extra]
        if cs2.length > maxE then splitInternal nb cs2
        else (.internal (internalBoundsFrom nb cs2) cs2, none)

/-- Recurse into the `j`-th child, replacing it with the insertion result
and propagating the optional split sibling. -/
def insertIntoChild (obs : List BoundingBox) (maxE : Nat) (bounds : BoundingBox)
    (dataIndex : Nat) : List RTreeNode → Nat → List RTreeNode × Option RTreeNode
  | [], _ => ([], none)
  | c :: rest, 0 =>
    match insertHelper obs maxE bounds dataIndex c with
    | (c2, extra) => (c2 :: rest, extra)
  | c :: rest, j + 1 =>
    match insertIntoChild obs maxE bounds dataIndex rest j with
    | (rest2, extra) => (c :: rest2, extra)

end

/-- The `RTree` class state: capacity, the external `object_bounds_`
array, and the root node (a fresh tree's root is an empty leaf). -/
structure RTree where
  max_entries : Nat
  object_bounds : List BoundingBox
  root : RTreeNode

/-- `RTree::insert`: push the box onto `object_bounds_`, insert, and when
the root splits build a new root over the two pieces
(`splitNode`, root branch). -/
def RTree.insert (t : RTree) (bounds : BoundingBox) (dataIndex : Nat) : RTree :=
  let obs2 := t.object_bounds ++ [bounds]
  match insertHelper obs2 t.max_entries bounds dataIndex t.root with
  | (r, none) => { t with object_bounds := obs2, root := r }
  | (r1, some r2) =>
    { t with object_bounds := obs2,
             root := .internal (internalBoundsFrom default [r1, r2]) [r1, r2] }

mutual

/-- `RTree::queryHelper`: prune subtrees whose bounds miss the query box;
at leaves emit the in-range indices whose stored box intersects it. -/
def queryHelper (obs : List BoundingBox) (q : BoundingBox) : RTreeNode → List Nat
  | .leaf nb idxs =>
    if nb.intersects q then
      idxs.filter (fun idx => decide (idx < obs.length) && (obs.getD idx default).intersects q)
    else []
  | .internal nb cs =>
    if nb.intersects q then queryHelperList obs q cs else []

/-- The recursive loop over a node's children, in order. -/
def queryHelperList (obs : List BoundingBox) (q : BoundingBox) : List RTreeNode → List Nat
  | [] => []
  | c :: rest => queryHelper obs q c ++ queryHelperList obs q rest

end

/-- `RTree::query`. -/
def RTree.query (t : RTree) (query_bounds : BoundingBox) : List Nat :=
  queryHelper t.object_bounds query_bounds t.root

/-- A fresh `RTree(max_entries)`: empty bounds array, empty leaf root. -/
def RTree.new (maxE : Nat) : RTree :=
  ⟨maxE, [], .leaf default []⟩

/-- N sequential `insert(bbox_i, i)` calls, `i = 0..N-1`, as performed by
`SpatialIndex::buildIndex` for records with geometry. -/
def buildRTree (maxE : Nat) (bs : List BoundingBox) : RTree :=
  (List.range bs.length).foldl (fun t i => t.insert (bs.getD i default) i) (RTree.new maxE)

/-! ## Nearest neighbours and the spatial facade -/

/-- `RTree::DistanceItem`.  The source stores
`sqrt(dx*dx + dy*dy)` and sorts with `<` on those values; since the square
root is strictly monotone on nonnegative reals, ordering by the stored
distance coincides with ordering by `dx*dx + dy*dy`, which is what the
embedding stores (exactly, in `ℚ`). -/
structure DistanceItem where
  index : Nat
  dist2 : ℚ
deriving DecidableEq, Repr

/-- Comparison used to sort `DistanceItem`s (nondecreasing distance).
The source's `std::sort` uses the strict `<` and is unstable, so the
relative order of equal distances is unspecified there; the embedding
uses a stable sort, one of the permitted outcomes. -/
def DistanceItem.le (a b : DistanceItem) : Prop := a.dist2 ≤ b.dist2

instance : DecidableRel DistanceItem.le := fun a b => by
  unfold DistanceItem.le; infer_instance

instance : IsTotal DistanceItem DistanceItem.le :=
  ⟨fun a b => le_total a.dist2 b.dist2⟩

instance : IsTrans DistanceItem DistanceItem.le :=
  ⟨fun _ _ _ h1 h2 => le_trans h1 h2⟩

/-- Squared distance from a point to the center of a bounding box — the
quantity `RTree::nearestNeighbors` actually ranks entries by. -/
def centerDist2 (point : Point2D) (bounds : BoundingBox) : ℚ :=
  let cx := (bounds.min_x + bounds.max_x) / 2
  let cy := (bounds.min_y + bounds.max_y) / 2
  (point.x - cx) * (point.x - cx) + (point.y - cy) * (point.y - cy)

/-- `RTree::nearestNeighbors` (`src/spatial/spatial_index.cpp:91-121`):
build a `DistanceItem` for every entry of `object_bounds_` using the
distance from the query point to the *center* of the stored box, sort by
distance, and return the first `min(k, size)` indices. -/
def RTree.nearestNeighbors (t : RTree) (point : Point2D) (k : Nat) : List Nat :=
  let all_items := (List.range t.object_bounds.length).map
    (fun i => DistanceItem.mk i (centerDist2 point (t.object_bounds.getD i default)))
  let sorted := all_items.insertionSort DistanceItem.le
  ((sorted.take (min k all_items.length)).map (fun item => item.index))

/-- `FieldValue` = `std::variant<std::string, double, bool, int>`
(`include/gis/shapefile_reader.h`).  The `double` payload is kept as its
raw 64-bit pattern; no claim inspects numeric attribute values. -/
inductive FieldValue where
  | text (s : List Nat)
  | number (bits : Nat)
  | boolean (b : Bool)
  | integer (i : Int)
deriving DecidableEq, Repr

/-- An in-memory shapefile record (`struct ShapeRecord` of
`include/gis/shapefile_reader.h`): the geometry pointer may be null;
attributes map field names to values (association list, unique keys). -/
structure ShapeRecord where
  geometry : Option Geometry
  attributes : List (List Nat × FieldValue) := []
deriving DecidableEq, Repr

/-- `SpatialIndex` state: the borrowed record vector (entries may be
null pointers) and the R-tree built over it. -/
structure SpatialIndex where
  records : List (Option ShapeRecord)
  rtree : RTree

/-- `SpatialIndex::buildIndex`: insert `getBounds` of every non-null
record with non-null geometry, keyed by its position in the vector. -/
def SpatialIndex.build (records : List (Option ShapeRecord)) : SpatialIndex :=
  ⟨records,
   (List.range records.length).foldl
     (fun t i =>
       match records.getD i none with
       | some r =>
         match r.geometry with
         | some g => t.insert g.getBounds i
         | none => t
       | none => t)
     (RTree.new 16)⟩

/-- `SpatialIndex::pointInPolygon` (`src/spatial/spatial_index.cpp:356-380`),
returning the index of the returned record (the source returns the
pointer `(*records_)[idx].get()`).  The containment test present in the
source only as a comment —

    if (geometry->getType() == ShapeType::Polygon) {
      auto polygon = dynamic_cast<const PolygonGeometry*>(geometry.get());
      if (polygon && polygon->contains(point)) return (*records_)[idx].get();
    }

— is commented out there as well: the function returns the first
candidate that is non-null and has any geometry.  The `0.0001` padding of
the probe box is modelled as the exact rational `1/10000` (the nearest
double differs by less than `2^-80`, irrelevant to the inputs used). -/
def SpatialIndex.pointInPolygon (s : SpatialIndex) (point : Point2D) : Option Nat :=
  let point_bounds : BoundingBox :=
    ⟨point.x - 1/10000, point.y - 1/10000, point.x + 1/10000, point.y + 1/10000⟩
  let candidates := s.rtree.query point_bounds
  candidates.findSome? (fun idx =>
    if idx < s.records.length then
      match s.records.getD idx none with
      | some r => if r.geometry.isSome then some idx else none
      | none => none
    else none)

/-! ## Address parser (`src/geocoding/geocoder.cpp`)

`std::string`s are byte sequences: `List Nat` with values `0..255`.
Literal strings are injected through `str`. -/

/-- Byte-list view of a string literal. -/
def str (s : String) : List Nat := s.data.map Char.toNat

/-- C-locale `isspace`: space and `\t \n \v \f \r`, which is also what
the `\s` regex class matches. -/
def isWsB (c : Nat) : Bool := c = 32 || (9 ≤ c && c ≤ 13)

/-- C-locale `::isdigit`. -/
def isDigitB (c : Nat) : Bool := 48 ≤ c && c ≤ 57

/-- C-locale `std::toupper` on a byte. -/
def toupperB (c : Nat) : Nat := if 97 ≤ c ∧ c ≤ 122 then c - 32 else c

/-- `std::regex_replace(s, "[,\.]", " ")`: each comma or period becomes
one space. -/
def punctToSpace (l : List Nat) : List Nat :=
  l.map (fun c => if c = 44 ∨ c = 46 then 32 else c)

mutual

/-- `std::regex_replace(s, "\s+", " ")`: each maximal whitespace run
becomes one space (`collapseWs` at a run's head emits the space,
`afterWs` consumes the rest of the run). -/
def collapseWs : List Nat → List Nat
  | [] => []
  | c :: rest => if isWsB c then 32 :: afterWs rest else c :: collapseWs rest

/-- Consume the remainder of a whitespace run. -/
def afterWs : List Nat → List Nat
  | [] => []
  | c :: rest => if isWsB c then afterWs rest else c :: collapseWs rest

end

/-- Space-or-tab test used by the trim steps (`find_first_not_of(" \t")`). -/
def isSTB (c : Nat) : Bool := c = 32 || c = 9

/-- The two `erase` calls ending `AddressParser::normalize`: strip
leading then trailing spaces/tabs. -/
def trimST (l : List Nat) : List Nat :=
  ((l.dropWhile isSTB).reverse.dropWhile isSTB).reverse

/-- `AddressParser::normalize` (`src/geocoding/geocoder.cpp:113-133`):
uppercase, replace `,` and `.` by spaces, collapse whitespace runs,
trim spaces/tabs. -/
def AddressParser.normalize (address : List Nat) : List Nat :=
  trimST (collapseWs (punctToSpace (address.map toupperB)))

/-- `AddressParser::tokenize`: `istringstream` extraction, i.e. the
maximal non-whitespace runs in order. -/
def AddressParser.tokenize (text : List Nat) : List (List Nat) :=
  (text.splitOnP isWsB).filter (fun w => !w.isEmpty)

/-- `AddressParser::isNumeric`. -/
def AddressParser.isNumeric (s : List Nat) : Bool :=
  !s.isEmpty && s.all isDigitB

/-- `AddressParser::isZipCode`: 5 digits, or 5 digits, `-`, 4 digits. -/
def AddressParser.isZipCode (s : List Nat) : Bool :=
  if s.length = 5 then s.all isDigitB
  else if s.length = 10 && s.getD 5 0 = 45 then
    (s.take 5).all isDigitB && ((s.drop 6).all isDigitB)
  else false

/-- `street_type_abbreviations_` from
`AddressParser::initializeAbbreviations`. -/
def street_type_abbreviations : List (List Nat × List Nat) :=
  [(str "ST", str "STREET"), (str "AVE", str "AVENUE"), (str "BLVD", str "BOULEVARD"),
   (str "RD", str "ROAD"), (str "DR", str "DRIVE"), (str "LN", str "LANE"),
   (str "CT", str "COURT"), (str "PL", str "PLACE"), (str "WAY", str "WAY"),
   (str "CIR", str "CIRCLE"), (str "PKWY", str "PARKWAY"), (str "HWY", str "HIGHWAY")]

/-- `state_abbreviations_` from `AddressParser::initializeAbbreviations`. -/
def state_abbreviations : List (List Nat × List Nat) :=
  [(str "AL", str "ALABAMA"), (str "AK", str "ALASKA"), (str "AZ", str "ARIZONA"),
   (str "AR", str "ARKANSAS"), (str "CA", str "CALIFORNIA"), (str "CO", str "COLORADO"),
   (str "CT", str "CONNECTICUT"), (str "DE", str "DELAWARE"), (str "FL", str "FLORIDA"),
   (str "GA", str "GEORGIA"), (str "HI", str "HAWAII"), (str "ID", str "IDAHO"),
   (str "IL", str "ILLINOIS"), (str "IN", str "INDIANA"), (str "IA", str "IOWA"),
   (str "KS", str "KANSAS"), (str "KY", str "KENTUCKY"), (str "LA", str "LOUISIANA"),
   (str "ME", str "MAINE"), (str "MD", str "MARYLAND"), (str "MA", str "MASSACHUSETTS"),
   (str "MI", str "MICHIGAN"), (str "MN", str "MINNESOTA"), (str "MS", str "MISSISSIPPI"),
   (str "MO", str "MISSOURI"), (str "MT", str "MONTANA"), (str "NE", str "NEBRASKA"),
   (str "NV", str "NEVADA"), (str "NH", str "NEW HAMPSHIRE"), (str "NJ", str "NEW JERSEY"),
   (str "NM", str "NEW MEXICO"), (str "NY", str "NEW YORK"), (str "NC", str "NORTH CAROLINA"),
   (str "ND", str "NORTH DAKOTA"), (str "OH", str "OHIO"), (str "OK", str "OKLAHOMA"),
   (str "OR", str "OREGON"), (str "PA", str "PENNSYLVANIA"), (str "RI", str "RHODE ISLAND"),
   (str "SC", str "SOUTH CAROLINA"), (str "SD", str "SOUTH DAKOTA"), (str "TN", str "TENNESSEE"),
   (str "TX", str "TEXAS"), (str "UT", str "UTAH"), (str "VT", str "VERMONT"),
   (str "VA", str "VIRGINIA"), (str "WA", str "WASHINGTON"), (str "WV", str "WEST VIRGINIA"),
   (str "WI", str "WISCONSIN"), (str "WY", str "WYOMING"), (str "DC", str "DISTRICT OF COLUMBIA")]

/-- `struct ParsedAddress` (`include/gis/geocoder.h`). -/
structure ParsedAddress where
  house_number : List Nat := []
  street_name : List Nat := []
  street_type : List Nat := []
  city : List Nat := []
  state : List Nat := []
  zip_code : List Nat := []
  country : List Nat := []
  full_address : List Nat := []
deriving DecidableEq, Repr

/-- The space-separated join performed by the `ostringstream` loops in
`AddressParser::parse`. -/
def joinSpace (parts : List (List Nat)) : List Nat :=
  (parts.intersperse (str " ")).flatten

/-- `AddressParser::parse` (`src/geocoding/geocoder.cpp:47-111`).  The
token walk is sequential: optional leading all-digit house number;
street tokens up to the first state abbreviation or zip code, with a
trailing street-type abbreviation split off and expanded; then optional
state, optional zip.  The final `city` step joins the tokens at
positions `j < i` — the *consumed* prefix — and only fires when tokens
remain, reproducing the source faithfully. -/
def AddressParser.parse (address_string : List Nat) : ParsedAddress :=
  let tokens := AddressParser.tokenize (AddressParser.normalize address_string)
  if tokens.isEmpty then { full_address := address_string } else
  let (house_number, i1) :=
    match tokens with
    | t0 :: _ => if AddressParser.isNumeric t0 then (t0, 1) else ([], 0)
    | [] => ([], 0)
  let street_parts := (tokens.drop i1).takeWhile
    (fun t => !AddressParser.isZipCode t && (state_abbreviations.lookup t).isNone)
  let i2 := i1 + street_parts.length
  let last_token := street_parts.getLastD []
  let (street_type, name_parts) :=
    if street_parts.isEmpty then ([], street_parts)
    else
      match street_type_abbreviations.lookup last_token with
      | some expansion => (expansion, street_parts.dropLast)
      | none => ([], street_parts)
  let street_name := if street_parts.isEmpty then [] else joinSpace name_parts
  let (state, i3) :=
    if i2 < tokens.length ∧ (state_abbreviations.lookup (tokens.getD i2 [])).isSome
    then (tokens.getD i2 [], i2 + 1) else ([], i2)
  let (zip_code, i4) :=
    if i3 < tokens.length ∧ AddressParser.isZipCode (tokens.getD i3 [])
    then (tokens.getD i3 [], i3 + 1) else ([], i3)
  let city := if i4 < tokens.length then joinSpace (tokens.take i4) else []
  { house_number := house_number, street_name := street_name,
    street_type := street_type, city := city, state := state,
    zip_code := zip_code, full_address := address_string }

/-- `ParsedAddress::isValid` (`src/geocoding/geocoder.cpp:179-183`): the
GADM-oriented test — any state text or any full-address text. -/
def ParsedAddress.isValid (a : ParsedAddress) : Bool :=
  !a.state.isEmpty || !a.full_address.isEmpty

/-! ## Geocoder (`src/geocoding/geocoder.cpp`) -/

/-- `struct GeocodeResult` (`include/gis/geocoder.h`); the default
constructor zero-initialises the coordinate and the confidence and leaves
`match_type` empty. -/
structure GeocodeResult where
  coordinate : Point2D := ⟨0, 0⟩
  matched_address : ParsedAddress := {}
  confidence_score : ℚ := 0
  match_type : List Nat := []
deriving DecidableEq, Repr

/-- Descending-confidence comparison used when sorting candidates
(`std::sort` with `a.confidence_score > b.confidence_score`; the source
sort is unstable, the embedding's stable sort realises one of the
permitted tie orders). -/
def GeocodeResult.confGE (a b : GeocodeResult) : Prop :=
  b.confidence_score ≤ a.confidence_score

instance : DecidableRel GeocodeResult.confGE := fun a b => by
  unfold GeocodeResult.confGE; infer_instance

instance : IsTotal GeocodeResult GeocodeResult.confGE :=
  ⟨fun a b => le_total b.confidence_score a.confidence_score⟩

instance : IsTrans GeocodeResult GeocodeResult.confGE :=
  ⟨fun _ _ _ h1 h2 => le_trans h2 h1⟩

/-- `Geocoder::jaroWinklerSimilarity` (the simplified version of the
source): 1 on equal strings, 0 when either is empty, otherwise the number
of positions with equal bytes divided by the longer length. -/
def jaroWinklerSimilarity (s1 s2 : List Nat) : ℚ :=
  if s1 = s2 then 1
  else if s1.isEmpty || s2.isEmpty then 0
  else
    let common_chars :=
      ((List.range (min s1.length s2.length)).filter
        (fun i => s1.getD i 0 = s2.getD i 0)).length
    (common_chars : ℚ) / (max s1.length s2.length : ℚ)

/-- `Geocoder::calculateStateConfidence`. -/
def calculateStateConfidence (input_state candidate_state : List Nat) : ℚ :=
  if input_state.isEmpty || candidate_state.isEmpty then 0
  else if input_state = candidate_state then 1
  else
    let normalized_input := AddressParser.normalize input_state
    let normalized_candidate := AddressParser.normalize candidate_state
    if normalized_input = normalized_candidate then 1
    else if input_state.length = 2 ∧
        state_abbreviations.lookup normalized_input = some normalized_candidate then 1
    else jaroWinklerSimilarity normalized_input normalized_candidate

/-- `Geocoder::extractAddressFromRecord`: the named attribute when it
holds the string alternative, else the empty string. -/
def extractAddressFromRecord (record : ShapeRecord) (field_name : List Nat) : List Nat :=
  match record.attributes.lookup field_name with
  | some (.text s) => s
  | _ => []

/-- `Geocoder` state: the loaded record vector (entries may be null) and
the unified state index (`index_.city_index`), an association map from
text key to record indices. -/
structure Geocoder where
  address_data : List (Option ShapeRecord)
  city_index : List (List Nat × List Nat)

/-- `std::unique` on the sorted index list: drop adjacent duplicates. -/
def dedupAdj : List Nat → List Nat
  | [] => []
  | [a] => [a]
  | a :: b :: rest => if a = b then dedupAdj (b :: rest) else a :: dedupAdj (b :: rest)

/-- Index lookup helper (`index_.city_index.find`, empty on miss). -/
def Geocoder.indexFind (g : Geocoder) (key : List Nat) : List Nat :=
  match g.city_index.lookup key with
  | some l => l
  | none => []

/-- `Geocoder::findCandidates` (`src/geocoding/geocoder.cpp:353-424`):
gather indices under the exact, normalized and abbreviation-expanded
search term; sort and deduplicate; keep candidates whose simplified
state confidence exceeds `0.3`, with the record bbox centroid as
coordinate and match type `"exact"` above `0.9`, else `"fuzzy"`. -/
def Geocoder.findCandidates (g : Geocoder) (parsed_address : ParsedAddress) :
    List GeocodeResult :=
  let search_term :=
    if parsed_address.state.isEmpty then parsed_address.full_address
    else parsed_address.state
  let gathered :=
    if !search_term.isEmpty then
      g.indexFind search_term ++
      g.indexFind (AddressParser.normalize search_term) ++
      (if search_term.length = 2 then
        match state_abbreviations.lookup (AddressParser.normalize search_term) with
        | some full_name => g.indexFind full_name
        | none => []
      else [])
    else []
  let candidate_indices := dedupAdj (gathered.insertionSort (fun a b => a ≤ b))
  candidate_indices.filterMap (fun idx =>
    if idx < g.address_data.length then
      match g.address_data.getD idx none with
      | some record =>
        match record.geometry with
        | some geom =>
          let cand_state := extractAddressFromRecord record (str "NAME_1")
          let confidence := calculateStateConfidence search_term cand_state
          if confidence > 3/10 then
            let bounds := geom.getBounds
            some { coordinate := ⟨(bounds.min_x + bounds.max_x) / 2,
                                  (bounds.min_y + bounds.max_y) / 2⟩,
                   matched_address := { state := cand_state, full_address := cand_state },
                   confidence_score := confidence,
                   match_type := if confidence > 9/10 then str "exact" else str "fuzzy" }
          else none
        | none => none
      | none => none
    else none)

/-- The `ParsedAddress` that `Geocoder::geocodeStateName` builds from the
raw query. -/
def stateNameQuery (query : List Nat) : ParsedAddress :=
  { state := query, full_address := query }

/-- `Geocoder::geocodeStateName`: candidates for the raw query as a state
name, best by descending confidence, or the empty result. -/
def Geocoder.geocodeStateName (g : Geocoder) (query : List Nat) : GeocodeResult :=
  let candidates := g.findCandidates (stateNameQuery query)
  match candidates.insertionSort GeocodeResult.confGE with
  | best :: _ => best
  | [] => {}

/-- `Geocoder::geocode` (`src/geocoding/geocoder.cpp:223-247`): parse;
when the parse is valid and has candidates, the best by confidence wins;
otherwise fall back to the state-name lookup; otherwise the
default-constructed empty result. -/
def Geocoder.geocode (g : Geocoder) (address : List Nat) : GeocodeResult :=
  let parsed := AddressParser.parse address
  let first_try :=
    if parsed.isValid then
      match (g.findCandidates parsed).insertionSort GeocodeResult.confGE with
      | best :: _ => some best
      | [] => none
    else none
  match first_try with
  | some result => result
  | none =>
    let state_result := g.geocodeStateName address
    if state_result.confidence_score > 0 then state_result else {}

/-! ## Shapefile reader (`src/shapefile/shapefile_reader.cpp`)

Files are byte lists; reads beyond the end yield byte `0` (the claims
settled here never depend on out-of-range reads).  IEEE-754 doubles read
from records are kept as their raw 64-bit patterns: no settled claim
inspects a decoded coordinate. -/

/-- A binary file: bytes in order. -/
def ByteFile := List Nat

/-- Single byte access. -/
def byteAt (f : ByteFile) (pos : Nat) : Nat := List.getD f pos 0

/-- Little-endian unsigned 16-bit read (`readValue<uint16_t>`). -/
def readU16LE (f : ByteFile) (pos : Nat) : Nat :=
  byteAt f pos + 256 * byteAt f (pos + 1)

/-- Little-endian unsigned 32-bit read (`readValue<uint32_t>`). -/
def readU32LE (f : ByteFile) (pos : Nat) : Nat :=
  byteAt f pos + 256 * byteAt f (pos + 1) +
  65536 * byteAt f (pos + 2) + 16777216 * byteAt f (pos + 3)

/-- Two's-complement reinterpretation of a 32-bit pattern. -/
def toSigned32 (n : Nat) : Int :=
  if n < 2 ^ 31 then (n : Int) else (n : Int) - 2 ^ 32

/-- Little-endian signed 32-bit read (`readValue<int32_t>`). -/
def readI32LE (f : ByteFile) (pos : Nat) : Int :=
  toSigned32 (readU32LE f pos)

/-- Big-endian signed 32-bit read (`readValue<int32_t>(…, true)`). -/
def readI32BE (f : ByteFile) (pos : Nat) : Int :=
  toSigned32 (16777216 * byteAt f pos + 65536 * byteAt f (pos + 1) +
              256 * byteAt f (pos + 2) + byteAt f (pos + 3))

/-- Little-endian 64-bit read, kept as the raw pattern
(`readValue<double>`). -/
def readU64LE (f : ByteFile) (pos : Nat) : Nat :=
  (List.range 8).foldl (fun acc k => acc + 256 ^ k * byteAt f (pos + k)) 0

/-- `enum class FieldType` (`include/gis/shapefile_reader.h`). -/
inductive FieldType where
  | character | numeric | logical | date | float | unknown
deriving DecidableEq, Repr

/-- `struct FieldDefinition`: name (bytes up to the first NUL of the
11-byte field), type, on-disk length, decimal count. -/
structure FieldDefinition where
  name : List Nat
  ftype : FieldType
  length : Nat
  decimal_count : Nat
deriving DecidableEq, Repr

/-- `std::string(field_name)` on the null-padded 11-byte buffer: bytes up
to the first NUL. -/
def takeUntilZero (l : List Nat) : List Nat :=
  l.takeWhile (fun c => c ≠ 0)

/-- The field-descriptor loop of `ShapefileReader::readDBFHeader`:
starting at offset 32, one 32-byte descriptor per iteration while
`field_offset < header_length - 1`. -/
def readFieldDefs (dbf : ByteFile) (off bound : Nat) : List FieldDefinition :=
  if off < bound then
    let nameBytes := (List.range 11).map (fun k => byteAt dbf (off + k))
    let type_char := byteAt dbf (off + 11)
    let ftype : FieldType :=
      if type_char = 67 then .character
      else if type_char = 78 then .numeric
      else if type_char = 76 then .logical
      else if type_char = 68 then .date
      else if type_char = 70 then .float
      else .unknown
    { name := takeUntilZero nameBytes, ftype := ftype,
      length := byteAt dbf (off + 16), decimal_count := byteAt dbf (off + 17) } ::
      readFieldDefs dbf (off + 32) bound
  else []
termination_by bound - off

/-- `ShapefileReader` state after construction / opening
(`include/gis/shapefile_reader.h` private members; header-derived doubles
are kept as raw patterns). -/
structure ShapefileReader where
  shp : ByteFile
  shx : ByteFile
  dbf : Option ByteFile
  file_code : Int := 0
  file_length : Int := 0
  version : Int := 0
  shape_type : Int := 0
  record_count : Nat := 0
  header_length : Nat := 0
  record_length : Nat := 0
  field_definitions : List FieldDefinition := []
  is_open : Bool := false

/-- `ShapefileReader::readDBFHeader` applied to an open `.dbf` stream:
record count from bytes 4–7 (LE u32), header and record lengths from
bytes 8–11 (LE u16), then the descriptor loop.  `header_length_ - 1`
is computed as in C++: the `uint16_t` promotes to `int`, and the result
converts to `size_t`, so a zero header length yields `2^64 - 1`. -/
def readDBFHeader (r : ShapefileReader) (dbf : ByteFile) : ShapefileReader :=
  let record_count := readU32LE dbf 4
  let header_length := readU16LE dbf 8
  let record_length := readU16LE dbf 10
  let bound := if header_length = 0 then 2 ^ 64 - 1 else header_length - 1
  { r with record_count := record_count, header_length := header_length,
           record_length := record_length,
           field_definitions := readFieldDefs dbf 32 bound }

/-- `ShapefileReader::readShapefileHeader`: file code (BE) at 0, file
length (BE) at 24, version (LE) at 28, shape type (LE) at 32.  Returns
the updated state and the success flag (`file_code == 9994`). -/
def readShapefileHeader (r : ShapefileReader) : ShapefileReader × Bool :=
  let file_code := readI32BE r.shp 0
  if file_code ≠ 9994 then ({ r with file_code := file_code }, false)
  else
    ({ r with file_code := file_code,
              file_length := readI32BE r.shp 24,
              version := readI32LE r.shp 28,
              shape_type := readI32LE r.shp 32 }, true)

/-- `ShapefileReader::open` (`src/shapefile/shapefile_reader.cpp:26-60`):
`.shp` and `.shx` must exist, `.dbf` is optional; the main header must
carry file code 9994; the DBF header is parsed only when the `.dbf`
stream opened.  Returns the success flag and the reader state. -/
def openReader (shpF shxF dbfF : Option ByteFile) : Bool × ShapefileReader :=
  match shpF with
  | none => (false, { shp := [], shx := [], dbf := none })
  | some shp =>
    match shxF with
    | none => (false, { shp := shp, shx := [], dbf := none })
    | some shx =>
      let hdr := readShapefileHeader { shp := shp, shx := shx, dbf := dbfF }
      if !hdr.2 then (false, hdr.1)
      else
        match dbfF with
        | some dbf => (true, { readDBFHeader hdr.1 dbf with is_open := true })
        | none => (true, { hdr.1 with is_open := true })

/-- Raw record-level point: the two 64-bit patterns of `readPoint`. -/
structure RawPoint where
  xbits : Nat
  ybits : Nat
deriving DecidableEq, Repr

/-- Record-level geometry produced by `readGeometry` (parameterised by
raw points; decoding the IEEE patterns is irrelevant to every claim). -/
inductive RawGeometry where
  | point (p : RawPoint)
  | polyline (parts : List (List RawPoint))
  | polygon (rings : List (List RawPoint))
deriving DecidableEq, Repr

/-- Shared body of `readPolyline` / `readPolygon`: skip the 32-byte box,
read `num_parts` and `num_points` (LE i32), the part-start indices, all
points, then slice the point array into parts (the last part extends to
`num_points`).  Negative counts drive zero-length loops as in the C++
`for (int32_t i = 0; i < n; ++i)` idiom. -/
def readPartedPoints (file : ByteFile) (pos : Nat) : List (List RawPoint) :=
  let num_parts := readI32LE file (pos + 32)
  let num_points := readI32LE file (pos + 36)
  let np := num_parts.toNat
  let npts := num_points.toNat
  let parts := (List.range np).map (fun i => readI32LE file (pos + 40 + 4 * i))
  let points_base := pos + 40 + 4 * np
  let all_points := (List.range npts).map
    (fun i => RawPoint.mk (readU64LE file (points_base + 16 * i))
                          (readU64LE file (points_base + 16 * i + 8)))
  (List.range np).map (fun i =>
    let start := (parts.getD i 0).toNat
    let stop := if i = np - 1 then npts else (parts.getD (i + 1) 0).toNat
    (all_points.take stop).drop start)

/-- `ShapefileReader::readGeometry`: dispatch on the record shape type;
unsupported types yield a null geometry. -/
def readGeometry (file : ByteFile) (pos : Nat) (shape_type : Int) : Option RawGeometry :=
  if shape_type = 1 then
    some (.point ⟨readU64LE file pos, readU64LE file (pos + 8)⟩)
  else if shape_type = 3 then some (.polyline (readPartedPoints file pos))
  else if shape_type = 5 then some (.polygon (readPartedPoints file pos))
  else none

/-- A DBF attribute value as `readDBFRecord` builds it; numeric fields
keep the trimmed byte text (`std::stod` decoding is irrelevant to every
claim). -/
inductive DBFValue where
  | text (s : List Nat)
  | numericText (s : List Nat)
  | boolean (b : Bool)
deriving DecidableEq, Repr

/-- The per-field loop of `ShapefileReader::readDBFRecord`: consume
`field.length` bytes per definition, trim spaces/tabs, convert by type. -/
def readFieldValues (dbf : ByteFile) (pos : Nat) :
    List FieldDefinition → List (List Nat × DBFValue)
  | [] => []
  | field :: rest =>
    let raw := (List.range field.length).map (fun k => byteAt dbf (pos + k))
    let field_str := trimST raw
    let value : DBFValue :=
      match field.ftype with
      | .character => .text field_str
      | .numeric => .numericText field_str
      | .float => .numericText field_str
      | .logical => .boolean (field_str = [84] || field_str = [116] ||
                              field_str = [89] || field_str = [121])
      | _ => .text field_str
    (field.name, value) :: readFieldValues dbf (pos + field.length) rest

/-- `ShapefileReader::readDBFRecord` (`src/shapefile/shapefile_reader.cpp:308-324`):
empty map when no `.dbf` is open or the index is out of range; seek to
`header_length + index * record_length`; a `*` (byte 42) deletion flag
yields the empty map; otherwise the field values follow. -/
def ShapefileReader.readDBFRecord (r : ShapefileReader) (record_index : Nat) :
    List (List Nat × DBFValue) :=
  match r.dbf with
  | none => []
  | some dbf =>
    if record_index ≥ r.record_count then []
    else
      let record_pos := r.header_length + record_index * r.record_length
      let deletion_flag := byteAt dbf record_pos
      if deletion_flag = 42 then []
      else readFieldValues dbf (record_pos + 1) r.field_definitions

/-- The record struct as `readRecord` assembles it. -/
structure RawShapeRecord where
  record_number : Int
  geometry : Option RawGeometry
  attributes : List (List Nat × DBFValue)
deriving DecidableEq, Repr

/-- `ShapefileReader::readRecord` (`src/shapefile/shapefile_reader.cpp:155-185`):
null only when the reader is closed or the index is out of range;
otherwise the SHX entry gives the byte offset, the record header and
shape type are read (type 0 = null geometry), and the DBF attributes are
attached when a `.dbf` is open. -/
def ShapefileReader.readRecord (r : ShapefileReader) (index : Nat) :
    Option RawShapeRecord :=
  if !r.is_open || index ≥ r.record_count then none
  else
    let offset := (readI32BE r.shx (100 + index * 8) * 2).toNat
    let record_number := readI32BE r.shp offset
    let record_shape_type := readI32LE r.shp (offset + 8)
    let geometry :=
      if record_shape_type ≠ 0 then readGeometry r.shp (offset + 12) record_shape_type
      else none
    let attributes := if r.dbf.isSome then r.readDBFRecord index else []
    some ⟨record_number, geometry, attributes⟩

/-! ## Invariant vocabulary and concrete fixtures -/

mutual

/-- The list of data indices stored in the leaves of an R-tree node, in
left-to-right order. -/
def RTreeNode.entries : RTreeNode → List Nat
  | .leaf _ idxs => idxs
  | .internal _ cs => RTreeNode.entriesList cs

/-- Entries of a child list, concatenated in order. -/
def RTreeNode.entriesList : List RTreeNode → List Nat
  | [] => []
  | c :: rest => c.entries ++ RTreeNode.entriesList rest

end

/-- `outer` covers `inner` as axis-aligned boxes. -/
def covers (outer inner : BoundingBox) : Prop :=
  outer.min_x ≤ inner.min_x ∧ outer.min_y ≤ inner.min_y ∧
  inner.max_x ≤ outer.max_x ∧ inner.max_y ≤ outer.max_y

/-- All four coordinates bounded by `M` in absolute value. -/
def boundedBox (M : ℚ) (b : BoundingBox) : Prop :=
  |b.min_x| ≤ M ∧ |b.min_y| ≤ M ∧ |b.max_x| ≤ M ∧ |b.max_y| ≤ M

/-- Coordinate bound under which `double` area computations cannot
reach `DBL_MAX` (areas stay below `2^1022`). -/
def bigM : ℚ := 2 ^ 510

set_option maxRecDepth 4000 in
/-- The R-tree structural invariant maintained by insertion: every stored
index is in range of the external bbox array and its box is covered by
the leaf bounds; every internal node has children, covers them, and all
node bounds stay coordinate-bounded (so the least-enlargement scan always
finds a child: no enlargement reaches the `DBL_MAX` sentinel). -/
inductive TreeOK (obs : List BoundingBox) : RTreeNode → Prop where
  | leaf : ∀ {nb : BoundingBox} {idxs : List Nat},
      boundedBox bigM nb →
      (∀ i ∈ idxs, i < obs.length ∧ covers nb (obs.getD i default)) →
      TreeOK obs (.leaf nb idxs)
  | internal : ∀ {nb : BoundingBox} {cs : List RTreeNode},
      cs ≠ [] → boundedBox bigM nb →
      (∀ c ∈ cs, TreeOK obs c) → (∀ c ∈ cs, covers nb c.bounds) →
      TreeOK obs (.internal nb cs)

/-- Entries of an optional split sibling. -/
def entriesOpt : Option RTreeNode → List Nat
  | none => []
  | some e => e.entries

/-- Modelled from the spec (§4.5, k-NN): the squared Euclidean distance
from a query point to the closest point of a box — zero when the point is
inside.  This is the ranking the specification prescribes; it exists only
to compare against what `RTree::nearestNeighbors` computes. -/
def specNearestDist2 (p : Point2D) (b : BoundingBox) : ℚ :=
  let dx := max (b.min_x - p.x) (max 0 (p.x - b.max_x))
  let dy := max (b.min_y - p.y) (max 0 (p.y - b.max_y))
  dx * dx + dy * dy

/-- One record whose geometry is a point — not a polygon. -/
def c1_records : List (Option ShapeRecord) :=
  [some { geometry := some (.point ⟨0, 0⟩) }]

/-- Two boxes: the first contains the query point `(1,1)` (spec distance
zero) but has a far-away center; the second is a degenerate box at
`(2,2)` with a nearby center. -/
def c3_boxes : List BoundingBox := [⟨0, 0, 10, 10⟩, ⟨2, 2, 2, 2⟩]

/-- A minimal well-formed `.shp`: 100-byte header with file code 9994,
then one record (number 1, content length 2 words, shape type 0). -/
def shpFixture : ByteFile :=
  [0, 0, 39, 10] ++ List.replicate 96 0 ++
  [0, 0, 0, 1] ++ [0, 0, 0, 2] ++ [0, 0, 0, 0]

/-- `.shx` with one entry: offset 50 words (byte 100), length 2 words. -/
def shxFixture1 : ByteFile := List.replicate 100 0 ++ [0, 0, 0, 50, 0, 0, 0, 2]

/-- `.shx` whose length encodes two records: 100-byte header plus two
8-byte entries. -/
def shxFixture2 : ByteFile := List.replicate 116 0

/-- A minimal `.dbf`: one record of length 1, no fields
(header length 33 = 32 + terminator), with the single record marked
deleted (`*` = byte 42). -/
def dbfFixtureDeleted : ByteFile :=
  [3, 0, 0, 0] ++ [1, 0, 0, 0] ++ [33, 0] ++ [1, 0] ++
  List.replicate 20 0 ++ [13, 42]

/-- The address string of the spec's end-to-end parsing scenario. -/
def c6Input : List Nat := str "123 Main Street, Anytown, CA 12345"

/-- Two disjoint unit boxes for the C2 witness. -/
def c2_boxes : List BoundingBox := [⟨0, 0, 1, 1⟩, ⟨2, 2, 3, 3⟩]

/-- A query box covering both C2 witness boxes. -/
def c2_q : BoundingBox := ⟨0, 0, 10, 10⟩

/-- No lowercase ASCII letter occurs (established by the uppercase pass
of `normalize`). -/
def noLower (l : List Nat) : Prop := ∀ c ∈ l, ¬(97 ≤ c ∧ c ≤ 122)

/-- No comma or period occurs (established by the punctuation pass). -/
def noPunct (l : List Nat) : Prop := ∀ c ∈ l, c ≠ 44 ∧ c ≠ 46

/-- Every whitespace byte is a plain space and no two whitespace bytes
are adjacent (established by the collapse pass). -/
def wsSingle (l : List Nat) : Prop :=
  (∀ c ∈ l, isWsB c = true → c = 32) ∧
  List.Chain' (fun a b => ¬(isWsB a = true ∧ isWsB b = true)) l

/-! ## Claim theorems -/

section
set_option allowUnsafeReducibility true
attribute [local semireducible] Rat.inv Rat.mul Rat.add Rat.sub Rat.neg Rat.div

/-- C10: `PolygonGeometry::contains` returns `false` for every point when
the polygon's ring list is empty, so the public containment test is total
and a ring-less polygon contains no point. -/
theorem c10_contains_empty_rings (point : Point2D) :
    PolygonGeometry.contains ⟨[]⟩ point = false := rfl

/-- C7 counterexample: a `ParsedAddress` that lacks a house number (and a
street name) but carries a state is judged valid by
`ParsedAddress::isValid`, refuting the claim that validity requires
house number and street name. -/
theorem c7_counterexample :
    ({ state := str "CA" } : ParsedAddress).house_number = [] ∧
    ({ state := str "CA" } : ParsedAddress).street_name = [] ∧
    ({ state := str "CA" } : ParsedAddress).isValid = true := by
  decide

/-- C7 amended: the only `isValid` in the source is the GADM-oriented
one — valid exactly when the state or the free-text `full_address` is
non-empty; house number and street name play no role. -/
theorem c7_isValid_iff (a : ParsedAddress) :
    a.isValid = true ↔ (a.state ≠ [] ∨ a.full_address ≠ []) := by
  unfold ParsedAddress.isValid
  rcases a with ⟨h, s, t, c, st, z, co, f⟩
  rcases st with _ | ⟨b, st⟩ <;> rcases f with _ | ⟨b2, f⟩ <;> simp

/-- C6 counterexample: on `"123 Main Street, Anytown, CA 12345"` the
parser does *not* produce street name `MAIN`, street type `STREET`,
city `ANYTOWN` — `STREET` is not among the street-type keys (only `ST`
is), so the whole run of tokens before `CA` stays in the street name and
the city step never fires. -/
theorem c6_counterexample :
    ¬ ((AddressParser.parse c6Input).street_name = str "MAIN" ∧
       (AddressParser.parse c6Input).street_type = str "STREET" ∧
       (AddressParser.parse c6Input).city = str "ANYTOWN") := by
  decide

/-- C6 amended: the actual parse of
`"123 Main Street, Anytown, CA 12345"`: house number `123`, street name
`MAIN STREET ANYTOWN`, empty street type and city, state `CA`,
zip `12345`. -/
theorem c6_parse_actual :
    AddressParser.parse c6Input =
      { house_number := str "123", street_name := str "MAIN STREET ANYTOWN",
        street_type := [], city := [], state := str "CA",
        zip_code := str "12345", country := [], full_address := c6Input } := by
  decide

/-- C1 (code bug): `SpatialIndex::pointInPolygon` returns the very first
candidate whose record and geometry pointers are non-null — the
containment test is commented out — so with a single *point*-geometry
record it returns that record for the query `(0,0)` even though no
polygon contains the point.  The claim (and the function's own
documentation: return the containing polygon record or null) requires
`none` here. -/
theorem c1_pointInPolygon_skips_raycast :
    (SpatialIndex.build c1_records).pointInPolygon ⟨0, 0⟩ = some 0 ∧
    c1_records.getD 0 none = some { geometry := some (.point ⟨0, 0⟩) } := by
  constructor
  · decide
  · decide

/-- C4 amended: for any reader state, `readRecord i` is absent exactly
when the reader is not open or `i` is out of range; a DBF deletion flag
never makes the result absent (the deleted record comes back with an
empty attribute map). -/
theorem c4_readRecord_absent_iff (r : ShapefileReader) (index : Nat) :
    r.readRecord index = none ↔ (r.is_open = false ∨ r.record_count ≤ index) := by
  unfold ShapefileReader.readRecord
  by_cases h1 : r.is_open <;> by_cases h2 : r.record_count ≤ index <;>
    simp [h1, h2]

/-- C4 counterexample: a successfully opened reader whose single DBF
record is flagged deleted (`*` at its first byte) still yields a present
record from `readRecord 0` — with an empty attribute map — refuting
"absent when the DBF marks the record deleted". -/
theorem c4_counterexample :
    (openReader (some shpFixture) (some shxFixture1) (some dbfFixtureDeleted)).1 = true ∧
    byteAt dbfFixtureDeleted
      ((openReader (some shpFixture) (some shxFixture1) (some dbfFixtureDeleted)).2.header_length) = 42 ∧
    (openReader (some shpFixture) (some shxFixture1) (some dbfFixtureDeleted)).2.readRecord 0 =
      some { record_number := 1, geometry := none, attributes := [] } := by
  refine ⟨by decide, by decide, by decide⟩

/-- `readShapefileHeader` never touches `record_count_`. -/
theorem readShapefileHeader_record_count (r : ShapefileReader) :
    (readShapefileHeader r).1.record_count = r.record_count := by
  simp only [readShapefileHeader]
  by_cases hc : readI32BE r.shp 0 ≠ 9994 <;> simp [hc]

/-- C5 amended: after a successful `open()`, `record_count` is the DBF
header's count when a `.dbf` stream is present, and stays `0` when it is
absent — the SHX-derived `(shx_length - 100) / 8` fallback does not
exist in the source. -/
theorem c5_record_count (shpF shxF dbfF : Option ByteFile)
    (h : (openReader shpF shxF dbfF).1 = true) :
    (openReader shpF shxF dbfF).2.record_count =
      (match dbfF with
       | some dbf => readU32LE dbf 4
       | none => 0) := by
  match shpF, shxF with
  | none, _ => simp [openReader] at h
  | some shp, none => simp [openReader] at h
  | some shp, some shx =>
    simp only [openReader] at h ⊢
    by_cases hok : (readShapefileHeader { shp := shp, shx := shx, dbf := dbfF }).2 = true
    · simp only [hok, Bool.not_true, Bool.false_eq_true, if_false] at h ⊢
      cases dbfF with
      | some dbf => simp [readDBFHeader]
      | none => simp [readShapefileHeader_record_count]
    · simp only [Bool.not_eq_true] at hok
      simp [hok] at h

/-- C5 witness: the amended statement at the concrete fixture files
(with `.dbf` present, count 1). -/
theorem c5_witness :
    (openReader (some shpFixture) (some shxFixture1) (some dbfFixtureDeleted)).2.record_count =
      readU32LE dbfFixtureDeleted 4 :=
  c5_record_count (some shpFixture) (some shxFixture1) (some dbfFixtureDeleted) (by decide)

/-- C5 counterexample: with `.shp` and a 116-byte `.shx` but no `.dbf`,
`open()` succeeds, `(shx_length - 100)/8 = 2`, yet `record_count` is `0`
— not the claimed SHX-derived count. -/
theorem c5_counterexample :
    (openReader (some shpFixture) (some shxFixture2) none).1 = true ∧
    (openReader (some shpFixture) (some shxFixture2) none).2.record_count = 0 ∧
    (shxFixture2.length - 100) / 8 = 2 ∧
    (openReader (some shpFixture) (some shxFixture2) none).2.record_count ≠
      (shxFixture2.length - 100) / 8 := by
  refine ⟨by decide, by decide, by decide, by decide⟩

/-- C3 counterexample: boxes `[0,10]²` (contains the query `(1,1)`, spec
distance 0) and the degenerate `{(2,2)}` (spec distance 2 > 0):
`nearestNeighbors((1,1), 2)` returns `[1, 0]` — the entry with strictly
larger spec distance first — because the source ranks by distance to the
box *center*, not to the closest point of the box. -/
theorem c3_counterexample :
    (buildRTree 16 c3_boxes).nearestNeighbors ⟨1, 1⟩ 2 = [1, 0] ∧
    specNearestDist2 ⟨1, 1⟩ (c3_boxes.getD 0 default) = 0 ∧
    0 < specNearestDist2 ⟨1, 1⟩ (c3_boxes.getD 1 default) := by
  refine ⟨by decide, by decide, by decide⟩

/-- C8: whenever neither the parsed address nor the raw state-name query
yields any candidate above the confidence threshold (the threshold
filter is inside `findCandidates`), `Geocoder::geocode` returns the
default-constructed empty result: confidence `0`, empty match type. -/
theorem c8_geocode_empty_result (g : Geocoder) (address : List Nat)
    (h1 : g.findCandidates (AddressParser.parse address) = [])
    (h2 : g.findCandidates (stateNameQuery address) = []) :
    g.geocode address = {} ∧ ({} : GeocodeResult).confidence_score = 0 ∧
    ({} : GeocodeResult).match_type = [] := by
  refine ⟨?_, rfl, rfl⟩
  simp only [Geocoder.geocode, Geocoder.geocodeStateName]
  rw [h1, h2]
  by_cases hv : (AddressParser.parse address).isValid <;> simp [hv, List.insertionSort]

/-- C8 witness: an empty geocoder and an arbitrary unrecognized query. -/
theorem c8_witness :
    (Geocoder.mk [] []).geocode (str "UNKNOWN PLACE") = {} ∧
    ({} : GeocodeResult).confidence_score = 0 ∧
    ({} : GeocodeResult).match_type = [] :=
  c8_geocode_empty_result (Geocoder.mk [] []) (str "UNKNOWN PLACE")
    (by decide) (by decide)


/-- C3 amended: `nearestNeighbors(P, k)` returns `min(k, N)` indices in
nondecreasing order of the squared distance from `P` to the *center* of
each entry's stored box, and no omitted in-range entry is strictly
closer (by center distance) than any returned one.  The tie order is
unspecified in the source (`std::sort` is unstable); the embedding's
stable sort realises one permitted outcome. -/
theorem c3_nearestNeighbors_center_distance (t : RTree) (point : Point2D) (k : Nat) :
    (t.nearestNeighbors point k).length = min k t.object_bounds.length ∧
    List.Chain' (fun i j =>
      centerDist2 point (t.object_bounds.getD i default) ≤
      centerDist2 point (t.object_bounds.getD j default)) (t.nearestNeighbors point k) ∧
    (∀ i ∈ t.nearestNeighbors point k, ∀ j, j < t.object_bounds.length →
      j ∉ t.nearestNeighbors point k →
      centerDist2 point (t.object_bounds.getD i default) ≤
      centerDist2 point (t.object_bounds.getD j default)) := by
  classical
  let d : Nat → ℚ := fun i => centerDist2 point (t.object_bounds.getD i default)
  let f : Nat → DistanceItem := fun i => ⟨i, d i⟩
  let items := (List.range t.object_bounds.length).map f
  let sorted := items.insertionSort DistanceItem.le
  let m := min k items.length
  have hres : t.nearestNeighbors point k = (sorted.take m).map (fun it => it.index) := rfl
  have hperm : sorted.Perm items := List.perm_insertionSort _ _
  have hsorted : List.Sorted DistanceItem.le sorted := List.sorted_insertionSort _ _
  have hmem_sorted : ∀ a ∈ sorted, a.dist2 = d a.index ∧ a.index < t.object_bounds.length := by
    intro a ha
    rcases List.mem_map.mp (hperm.mem_iff.mp ha) with ⟨i, hi, rfl⟩
    exact ⟨rfl, List.mem_range.mp hi⟩
  have hlen_items : items.length = t.object_bounds.length := by
    simp [items]
  refine ⟨?_, ?_, ?_⟩
  · rw [hres, List.length_map, List.length_take, hperm.length_eq, hlen_items]
    omega
  · rw [hres]
    refine List.Pairwise.chain' ?_
    rw [List.pairwise_map]
    have hp : List.Pairwise DistanceItem.le (sorted.take m) :=
      List.Pairwise.sublist (List.take_sublist m sorted) hsorted
    refine hp.imp_of_mem ?_
    intro a b ha hb hab
    have ha2 := hmem_sorted a ((List.take_sublist m sorted).subset ha)
    have hb2 := hmem_sorted b ((List.take_sublist m sorted).subset hb)
    have : a.dist2 ≤ b.dist2 := hab
    rw [ha2.1, hb2.1] at this
    exact this
  · intro i hi j hjn hjr
    rw [hres] at hi hjr
    rcases List.mem_map.mp hi with ⟨a, ha_take, rfl⟩
    have hfj_sorted : f j ∈ sorted :=
      hperm.mem_iff.mpr (List.mem_map.mpr ⟨j, List.mem_range.mpr hjn, rfl⟩)
    have hsplit : f j ∈ sorted.take m ++ sorted.drop m := by
      rw [List.take_append_drop]
      exact hfj_sorted
    rcases List.mem_append.mp hsplit with hin | hdrop
    · exact absurd (List.mem_map.mpr ⟨f j, hin, rfl⟩) hjr
    · have hrel : DistanceItem.le a (f j) :=
        hsorted.rel_of_mem_take_of_mem_drop ha_take hdrop
      have ha2 := hmem_sorted a ((List.take_sublist m sorted).subset ha_take)
      have : a.dist2 ≤ (f j).dist2 := hrel
      rw [ha2.1] at this
      exact this

/-- C3 witness: the length clause of the amended statement at the
concrete two-box tree. -/
theorem c3_witness :
    ((buildRTree 16 c3_boxes).nearestNeighbors ⟨1, 1⟩ 2).length =
      min 2 (buildRTree 16 c3_boxes).object_bounds.length :=
  (c3_nearestNeighbors_center_distance (buildRTree 16 c3_boxes) ⟨1, 1⟩ 2).1


/-- `toupperB` never produces a lowercase letter. -/
theorem toupperB_not_lower (c : Nat) : ¬(97 ≤ toupperB c ∧ toupperB c ≤ 122) := by
  unfold toupperB
  split <;> omega

/-- `toupperB` fixes non-lowercase bytes. -/
theorem toupperB_fix (c : Nat) (h : ¬(97 ≤ c ∧ c ≤ 122)) : toupperB c = c := by
  unfold toupperB
  exact if_neg h

/-- The uppercase pass establishes `noLower`. -/
theorem noLower_map_toupperB (l : List Nat) : noLower (l.map toupperB) := by
  intro c hc
  rcases List.mem_map.mp hc with ⟨a, _, rfl⟩
  exact toupperB_not_lower a

/-- The uppercase pass fixes `noLower` strings. -/
theorem map_toupperB_fix (l : List Nat) (h : noLower l) : l.map toupperB = l := by
  have h2 : ∀ a ∈ l, toupperB a = a := fun a ha => toupperB_fix a (h a ha)
  calc l.map toupperB = l.map id := List.map_congr_left h2
    _ = l := l.map_id

/-- The punctuation pass establishes `noPunct`. -/
theorem noPunct_punctToSpace (l : List Nat) : noPunct (punctToSpace l) := by
  intro c hc
  rcases List.mem_map.mp hc with ⟨a, _, rfl⟩
  by_cases h : a = 44 ∨ a = 46
  · simp [h]
  · simpa [h] using not_or.mp h

/-- The punctuation pass fixes `noPunct` strings. -/
theorem punctToSpace_fix (l : List Nat) (h : noPunct l) : punctToSpace l = l := by
  have h2 : ∀ a ∈ l, (if a = 44 ∨ a = 46 then 32 else a) = a := by
    intro a ha
    rcases h a ha with ⟨h44, h46⟩
    rw [if_neg]
    rintro (rfl | rfl)
    · exact h44 rfl
    · exact h46 rfl
  calc punctToSpace l = l.map id := List.map_congr_left h2
    _ = l := l.map_id

/-- The punctuation pass preserves `noLower` (it only introduces spaces). -/
theorem noLower_punctToSpace (l : List Nat) (h : noLower l) : noLower (punctToSpace l) := by
  intro c hc
  rcases List.mem_map.mp hc with ⟨a, ha, rfl⟩
  by_cases h2 : a = 44 ∨ a = 46
  · simp [h2]
  · simpa [h2] using h a ha

/-- Every byte of the collapse pass output is a space or came from the
input. -/
theorem mem_collapseWs (l : List Nat) :
    (∀ c ∈ collapseWs l, c = 32 ∨ c ∈ l) ∧ (∀ c ∈ afterWs l, c = 32 ∨ c ∈ l) := by
  induction l with
  | nil => simp [collapseWs, afterWs]
  | cons a r ih =>
    constructor
    · intro c hc
      unfold collapseWs at hc
      by_cases hws : isWsB a = true
      · rw [if_pos hws] at hc
        rcases List.mem_cons.mp hc with rfl | hc2
        · exact Or.inl rfl
        · rcases ih.2 c hc2 with h32 | hmem
          · exact Or.inl h32
          · exact Or.inr (List.mem_cons_of_mem a hmem)
      · rw [if_neg hws] at hc
        rcases List.mem_cons.mp hc with rfl | hc2
        · exact Or.inr (List.mem_cons_self ..)
        · rcases ih.1 c hc2 with h32 | hmem
          · exact Or.inl h32
          · exact Or.inr (List.mem_cons_of_mem a hmem)
    · intro c hc
      unfold afterWs at hc
      by_cases hws : isWsB a = true
      · rw [if_pos hws] at hc
        rcases ih.2 c hc with h32 | hmem
        · exact Or.inl h32
        · exact Or.inr (List.mem_cons_of_mem a hmem)
      · rw [if_neg hws] at hc
        rcases List.mem_cons.mp hc with rfl | hc2
        · exact Or.inr (List.mem_cons_self ..)
        · rcases ih.1 c hc2 with h32 | hmem
          · exact Or.inl h32
          · exact Or.inr (List.mem_cons_of_mem a hmem)

/-- The collapse pass preserves `noLower`. -/
theorem noLower_collapseWs (l : List Nat) (h : noLower l) : noLower (collapseWs l) := by
  intro c hc
  rcases (mem_collapseWs l).1 c hc with rfl | hmem
  · omega
  · exact h c hmem

/-- The collapse pass preserves `noPunct`. -/
theorem noPunct_collapseWs (l : List Nat) (h : noPunct l) : noPunct (collapseWs l) := by
  intro c hc
  rcases (mem_collapseWs l).1 c hc with rfl | hmem
  · omega
  · exact h c hmem


/-- The collapse pass establishes `wsSingle`; the run-consumer's output
starts with a non-whitespace byte. -/
theorem wsSingle_collapseWs (l : List Nat) :
    wsSingle (collapseWs l) ∧ wsSingle (afterWs l) ∧
    (∀ h ∈ (afterWs l).head?, isWsB h = false) := by
  induction l with
  | nil =>
    refine ⟨⟨?_, ?_⟩, ⟨?_, ?_⟩, ?_⟩ <;> simp [collapseWs, afterWs]
  | cons a r ih =>
    by_cases hws : isWsB a = true
    · have hc : collapseWs (a :: r) = 32 :: afterWs r := by
        conv_lhs => rw [collapseWs]
        rw [if_pos hws]
      have ha : afterWs (a :: r) = afterWs r := by
        conv_lhs => rw [afterWs]
        rw [if_pos hws]
      refine ⟨⟨?_, ?_⟩, by rw [ha]; exact ih.2.1, by rw [ha]; exact ih.2.2⟩
      · intro c hc2 hcw
        rw [hc] at hc2
        rcases List.mem_cons.mp hc2 with rfl | hc3
        · rfl
        · exact ih.2.1.1 c hc3 hcw
      · rw [hc]
        refine List.chain'_cons'.mpr ⟨?_, ih.2.1.2⟩
        intro y hy
        rintro ⟨_, hy2⟩
        rw [ih.2.2 y hy] at hy2
        cases hy2
    · have hc : collapseWs (a :: r) = a :: collapseWs r := by
        conv_lhs => rw [collapseWs]
        rw [if_neg hws]
      have ha : afterWs (a :: r) = a :: collapseWs r := by
        conv_lhs => rw [afterWs]
        rw [if_neg hws]
      have hpart1 : ∀ c ∈ a :: collapseWs r, isWsB c = true → c = 32 := by
        intro c hc2 hcw
        rcases List.mem_cons.mp hc2 with rfl | hc3
        · exact absurd hcw hws
        · exact ih.1.1 c hc3 hcw
      have hpart2 : List.Chain' (fun x y => ¬(isWsB x = true ∧ isWsB y = true))
          (a :: collapseWs r) := by
        refine List.chain'_cons'.mpr ⟨?_, ih.1.2⟩
        intro y _
        rintro ⟨ha2, _⟩
        exact hws ha2
      refine ⟨⟨?_, ?_⟩, ⟨?_, ?_⟩, ?_⟩
      · rw [hc]; exact hpart1
      · rw [hc]; exact hpart2
      · rw [ha]; exact hpart1
      · rw [ha]; exact hpart2
      · rw [ha]
        intro h hh
        rw [Option.mem_def] at hh
        injection hh with hh
        subst hh
        exact Bool.not_eq_true _ ▸ hws

/-- The collapse pass fixes `wsSingle` strings (the run consumer
additionally needs a non-whitespace head). -/
theorem collapseWs_fix (l : List Nat) :
    (wsSingle l → collapseWs l = l) ∧
    (wsSingle l → (∀ h ∈ l.head?, isWsB h = false) → afterWs l = l) := by
  induction l with
  | nil => exact ⟨fun _ => rfl, fun _ _ => rfl⟩
  | cons a r ih =>
    have tails : wsSingle (a :: r) → wsSingle r := by
      rintro ⟨h1, h2⟩
      exact ⟨fun c hc => h1 c (List.mem_cons_of_mem a hc), (List.chain'_cons'.mp h2).2⟩
    constructor
    · intro hw
      unfold collapseWs
      by_cases hws : isWsB a = true
      · rw [if_pos hws]
        have ha32 : a = 32 := hw.1 a (List.mem_cons_self ..) hws
        have hhead : ∀ h ∈ r.head?, isWsB h = false := by
          intro y hy
          have h3 := (List.chain'_cons'.mp hw.2).1 y hy
          by_cases hyw : isWsB y = true
          · exact absurd ⟨hws, hyw⟩ h3
          · exact Bool.not_eq_true _ ▸ hyw
        rw [ih.2 (tails hw) hhead, ha32]
      · rw [if_neg hws, ih.1 (tails hw)]
    · intro hw hhead
      unfold afterWs
      have hwsa : isWsB a = false := hhead a rfl
      rw [if_neg (by simp [hwsa]), ih.1 (tails hw)]

/-- Trimming only removes bytes. -/
theorem trimST_subset (l : List Nat) : ∀ c ∈ trimST l, c ∈ l := by
  intro c hc
  unfold trimST at hc
  rw [List.mem_reverse] at hc
  have h1 := (List.dropWhile_suffix isSTB).subset hc
  rw [List.mem_reverse] at h1
  exact (List.dropWhile_suffix isSTB).subset h1

/-- Trimming preserves `wsSingle`. -/
theorem wsSingle_trimST (l : List Nat) (hw : wsSingle l) : wsSingle (trimST l) := by
  refine ⟨fun c hc => hw.1 c (trimST_subset l c hc), ?_⟩
  have hswap : ∀ (u : List Nat),
      List.Chain' (fun x y => ¬(isWsB x = true ∧ isWsB y = true)) u →
      List.Chain' (fun x y => ¬(isWsB x = true ∧ isWsB y = true)) u.reverse := by
    intro u hu
    rw [List.chain'_reverse]
    exact hu.imp (fun x y h => by rintro ⟨h1, h2⟩; exact h ⟨h2, h1⟩)
  unfold trimST
  exact hswap _ ((hswap _ (hw.2.suffix (List.dropWhile_suffix isSTB))).suffix
    (List.dropWhile_suffix isSTB))

/-- The head surviving a `dropWhile` fails the predicate. -/
theorem head_dropWhile_false (p : Nat → Bool) (l : List Nat) :
    ∀ h ∈ (List.dropWhile p l).head?, p h = false := by
  intro h hh
  rw [Option.mem_def] at hh
  have h2 := List.head?_dropWhile_not p l
  rw [hh] at h2
  exact h2

/-- The trimmed string starts with a byte that is not space or tab. -/
theorem head_trimST (l : List Nat) : ∀ h ∈ (trimST l).head?, isSTB h = false := by
  intro h hh
  rw [Option.mem_def] at hh
  have hne : trimST l ≠ [] := by
    intro he
    rw [he] at hh
    cases hh
  have hpre : trimST l <+: List.dropWhile isSTB l := by
    rw [← List.reverse_suffix]
    unfold trimST
    rw [List.reverse_reverse]
    exact List.dropWhile_suffix isSTB
  have hne2 : List.dropWhile isSTB l ≠ [] := by
    intro he
    rcases hpre with ⟨t2, ht2⟩
    rw [he] at ht2
    rcases List.append_eq_nil.mp ht2 with ⟨h1, _⟩
    exact hne h1
  have hhead : (trimST l).head hne = (List.dropWhile isSTB l).head hne2 :=
    hpre.head hne
  have hsome : (List.dropWhile isSTB l).head? = some h := by
    rw [List.head?_eq_head hne2, ← hhead, ← List.head?_eq_head hne, hh]
  exact head_dropWhile_false isSTB l h (Option.mem_def.mpr hsome)

/-- The trimmed string ends with a byte that is not space or tab. -/
theorem last_trimST (l : List Nat) : ∀ h ∈ (trimST l).getLast?, isSTB h = false := by
  intro h hh
  unfold trimST at hh
  rw [List.getLast?_reverse] at hh
  exact head_dropWhile_false isSTB _ h hh

/-- Trimming fixes strings whose first and last bytes are not space or
tab. -/
theorem trimST_fix (l : List Nat)
    (hhead : ∀ h ∈ l.head?, isSTB h = false)
    (hlast : ∀ h ∈ l.getLast?, isSTB h = false) : trimST l = l := by
  have h1 : List.dropWhile isSTB l = l := by
    cases l with
    | nil => rfl
    | cons a r =>
      rw [List.dropWhile_cons, if_neg]
      simp [hhead a rfl]
  unfold trimST
  rw [h1]
  have h2 : List.dropWhile isSTB l.reverse = l.reverse := by
    cases hl : l.reverse with
    | nil => rfl
    | cons a r =>
      rw [List.dropWhile_cons, if_neg]
      have ha : a ∈ l.getLast? := by
        rw [← List.head?_reverse, hl]
        rfl
      simp [hlast a ha]
  rw [h2, List.reverse_reverse]

/-- C9: `AddressParser::normalize` is idempotent — its output is already
uppercase, punctuation-free, single-spaced and trimmed, and each pass
fixes strings with those properties. -/
theorem c9_normalize_idempotent (s : List Nat) :
    AddressParser.normalize (AddressParser.normalize s) = AddressParser.normalize s := by
  unfold AddressParser.normalize
  have hLower : noLower (trimST (collapseWs (punctToSpace (s.map toupperB)))) := fun c hc =>
    noLower_collapseWs _ (noLower_punctToSpace _ (noLower_map_toupperB s)) c
      (trimST_subset _ c hc)
  have hPunct : noPunct (trimST (collapseWs (punctToSpace (s.map toupperB)))) := fun c hc =>
    noPunct_collapseWs _ (noPunct_punctToSpace _) c (trimST_subset _ c hc)
  have hws : wsSingle (trimST (collapseWs (punctToSpace (s.map toupperB)))) :=
    wsSingle_trimST _ (wsSingle_collapseWs _).1
  rw [map_toupperB_fix _ hLower, punctToSpace_fix _ hPunct, (collapseWs_fix _).1 hws,
      trimST_fix _ (head_trimST _) (last_trimST _)]


/-! ### C2: covering and boundedness algebra -/

/-- `covers` is reflexive. -/
theorem covers_refl (b : BoundingBox) : covers b b :=
  ⟨le_refl _, le_refl _, le_refl _, le_refl _⟩

/-- `covers` is transitive. -/
theorem covers_trans {a b c : BoundingBox} (h1 : covers a b) (h2 : covers b c) :
    covers a c :=
  ⟨le_trans h1.1 h2.1, le_trans h1.2.1 h2.2.1,
   le_trans h2.2.2.1 h1.2.2.1, le_trans h2.2.2.2 h1.2.2.2⟩

/-- The expansion covers its first argument. -/
theorem expand_covers_left (a b : BoundingBox) : covers (a.expand b) a :=
  ⟨min_le_left _ _, min_le_left _ _, le_max_left _ _, le_max_left _ _⟩

/-- The expansion covers its second argument. -/
theorem expand_covers_right (a b : BoundingBox) : covers (a.expand b) b :=
  ⟨min_le_right _ _, min_le_right _ _, le_max_right _ _, le_max_right _ _⟩

/-- Unfolding of `intersects` into four inequalities. -/
theorem intersects_iff (b q : BoundingBox) :
    b.intersects q = true ↔
      (q.min_x ≤ b.max_x ∧ b.min_x ≤ q.max_x ∧ q.min_y ≤ b.max_y ∧ b.min_y ≤ q.max_y) := by
  unfold BoundingBox.intersects
  simp [not_or, not_lt]
  tauto

/-- A box covered by `outer` that meets `q` forces `outer` to meet `q`:
the pruning step of `queryHelper` loses nothing. -/
theorem intersects_mono {outer inner q : BoundingBox} (hc : covers outer inner)
    (h : inner.intersects q = true) : outer.intersects q = true := by
  rw [intersects_iff] at h ⊢
  exact ⟨le_trans h.1 hc.2.2.1, le_trans hc.1 h.2.1,
         le_trans h.2.2.1 hc.2.2.2, le_trans hc.2.1 h.2.2.2⟩

/-- The default box is coordinate-bounded. -/
theorem bounded_default : boundedBox bigM default := by
  refine ⟨?_, ?_, ?_, ?_⟩ <;> · show |(0 : ℚ)| ≤ bigM
                                unfold bigM
                                rw [abs_zero]
                                positivity

/-- Expansion preserves coordinate bounds. -/
theorem bounded_expand {a b : BoundingBox} (ha : boundedBox bigM a)
    (hb : boundedBox bigM b) : boundedBox bigM (a.expand b) := by
  refine ⟨?_, ?_, ?_, ?_⟩
  · exact le_trans (abs_min_le_max_abs_abs) (max_le ha.1 hb.1)
  · exact le_trans (abs_min_le_max_abs_abs) (max_le ha.2.1 hb.2.1)
  · exact le_trans (abs_max_le_max_abs_abs) (max_le ha.2.2.1 hb.2.2.1)
  · exact le_trans (abs_max_le_max_abs_abs) (max_le ha.2.2.2 hb.2.2.2)

/-- Coordinate-bounded boxes have area at most `2^1022`. -/
theorem area_le_of_bounded {u : BoundingBox} (hu : boundedBox bigM u) :
    |u.area| ≤ 2 ^ 1022 := by
  unfold BoundingBox.area
  rw [abs_mul]
  have hx : |u.max_x - u.min_x| ≤ 2 ^ 511 := by
    calc |u.max_x - u.min_x| ≤ |u.max_x| + |u.min_x| := abs_sub _ _
      _ ≤ bigM + bigM := add_le_add hu.2.2.1 hu.1
      _ = 2 ^ 511 := by unfold bigM; ring
  have hy : |u.max_y - u.min_y| ≤ 2 ^ 511 := by
    calc |u.max_y - u.min_y| ≤ |u.max_y| + |u.min_y| := abs_sub _ _
      _ ≤ bigM + bigM := add_le_add hu.2.2.2 hu.2.1
      _ = 2 ^ 511 := by unfold bigM; ring
  calc |u.max_x - u.min_x| * |u.max_y - u.min_y|
      ≤ 2 ^ 511 * 2 ^ 511 :=
        mul_le_mul hx hy (abs_nonneg _) (by positivity)
    _ = 2 ^ 1022 := by ring

/-- The enlargement computed from coordinate-bounded boxes never reaches
the `DBL_MAX` sentinel, so the best-child scan always selects a child. -/
theorem enlargement_lt_dblmax {x b : BoundingBox} (hx : boundedBox bigM x)
    (hb : boundedBox bigM b) : calculateEnlargement x b < DBL_MAX := by
  unfold calculateEnlargement
  have h2 := area_le_of_bounded (bounded_expand hx hb)
  have h1 := area_le_of_bounded hx
  have hle : (x.expand b).area - x.area ≤ 2 ^ 1023 := by
    have := abs_sub_abs_le_abs_sub (x.expand b).area x.area
    have h3 : (x.expand b).area - x.area ≤ |(x.expand b).area| + |x.area| := by
      calc (x.expand b).area - x.area ≤ |(x.expand b).area - x.area| := le_abs_self _
        _ ≤ |(x.expand b).area| + |x.area| := abs_sub _ _
    calc (x.expand b).area - x.area ≤ |(x.expand b).area| + |x.area| := h3
      _ ≤ 2 ^ 1022 + 2 ^ 1022 := add_le_add h2 h1
      _ = 2 ^ 1023 := by ring
  have hlt : (2 : ℚ) ^ 1023 < DBL_MAX := by
    unfold DBL_MAX
    have h4 : (1 : ℚ) < 2 - (2 : ℚ)⁻¹ ^ 52 := by norm_num
    have h5 : (0 : ℚ) < 2 ^ 1023 := by positivity
    calc (2 : ℚ) ^ 1023 = 1 * 2 ^ 1023 := (one_mul _).symm
      _ < (2 - (2 : ℚ)⁻¹ ^ 52) * 2 ^ 1023 := by
        exact mul_lt_mul_of_pos_right h4 h5
  exact lt_of_le_of_lt hle hlt


/-! ### C2: bounds-recomputation folds -/

/-- Once the leaf-bounds fold has accumulated a box it keeps covering it. -/
theorem leafBoundsFold_covers_acc (obs : List BoundingBox) :
    ∀ (idxs : List Nat) (b0 : BoundingBox),
      ∃ res, idxs.foldl (leafBoundsStep obs) (some b0) = some res ∧ covers res b0 := by
  intro idxs
  induction idxs with
  | nil => exact fun b0 => ⟨b0, rfl, covers_refl b0⟩
  | cons idx rest ih =>
    intro b0
    rw [List.foldl_cons]
    unfold leafBoundsStep
    by_cases h : idx < obs.length
    · rw [if_pos h]
      rcases ih (b0.expand (obs.getD idx default)) with ⟨res, h1, h2⟩
      exact ⟨res, h1, covers_trans h2 (expand_covers_left _ _)⟩
    · rw [if_neg h]
      exact ih b0

/-- The leaf-bounds fold covers the box of every in-range index it
visits. -/
theorem leafBoundsFold_covers_mem (obs : List BoundingBox) :
    ∀ (idxs : List Nat) (acc : Option BoundingBox), ∀ i ∈ idxs, i < obs.length →
      ∃ res, idxs.foldl (leafBoundsStep obs) acc = some res ∧
        covers res (obs.getD i default) := by
  intro idxs
  induction idxs with
  | nil => intro acc i hi; cases hi
  | cons idx rest ih =>
    intro acc i hi hrange
    rw [List.foldl_cons]
    rcases List.mem_cons.mp hi with rfl | hi2
    · unfold leafBoundsStep
      rw [if_pos hrange]
      match acc with
      | none =>
        rcases leafBoundsFold_covers_acc obs rest (obs.getD i default) with ⟨res, h1, h2⟩
        exact ⟨res, h1, h2⟩
      | some b =>
        rcases leafBoundsFold_covers_acc obs rest (b.expand (obs.getD i default)) with
          ⟨res, h1, h2⟩
        exact ⟨res, h1, covers_trans h2 (expand_covers_right _ _)⟩
    · exact ih (leafBoundsStep obs acc idx) i hi2 hrange

/-- The leaf-bounds fold keeps coordinate bounds. -/
theorem leafBoundsFold_bounded (obs : List BoundingBox)
    (hobs : ∀ x ∈ obs, boundedBox bigM x) :
    ∀ (idxs : List Nat) (acc : Option BoundingBox),
      (∀ bb, acc = some bb → boundedBox bigM bb) →
      ∀ res, idxs.foldl (leafBoundsStep obs) acc = some res → boundedBox bigM res := by
  intro idxs
  induction idxs with
  | nil =>
    intro acc hacc res hres
    exact hacc res hres
  | cons idx rest ih =>
    intro acc hacc res hres
    rw [List.foldl_cons] at hres
    refine ih (leafBoundsStep obs acc idx) ?_ res hres
    intro bb hbb
    unfold leafBoundsStep at hbb
    by_cases h : idx < obs.length
    · rw [if_pos h] at hbb
      have hmem : obs.getD idx default ∈ obs := by
        rw [List.getD_eq_getElem obs default h]
        exact List.getElem_mem h
      match acc, hbb with
      | none, hbb =>
        injection hbb with hbb
        subst hbb
        exact hobs _ hmem
      | some b, hbb =>
        injection hbb with hbb
        subst hbb
        exact bounded_expand (hacc b rfl) (hobs _ hmem)
    · rw [if_neg h] at hbb
      exact hacc bb hbb

/-- `leafBoundsFrom` covers the stored box of every in-range entry. -/
theorem leafBoundsFrom_covers (obs : List BoundingBox) (old : BoundingBox)
    (idxs : List Nat) : ∀ i ∈ idxs, i < obs.length →
      covers (leafBoundsFrom obs old idxs) (obs.getD i default) := by
  intro i hi hrange
  unfold leafBoundsFrom
  rcases leafBoundsFold_covers_mem obs idxs none i hi hrange with ⟨res, h1, h2⟩
  rw [h1]
  exact h2

/-- `leafBoundsFrom` keeps coordinate bounds. -/
theorem leafBoundsFrom_bounded (obs : List BoundingBox) (old : BoundingBox)
    (idxs : List Nat) (hobs : ∀ x ∈ obs, boundedBox bigM x)
    (hold : boundedBox bigM old) : boundedBox bigM (leafBoundsFrom obs old idxs) := by
  unfold leafBoundsFrom
  rcases hres : idxs.foldl (leafBoundsStep obs) none with _ | res
  · exact hold
  · exact leafBoundsFold_bounded obs hobs idxs none (by intro bb h; cases h) res hres

/-- The internal-bounds fold covers its starting box. -/
theorem internalBoundsFold_covers_acc :
    ∀ (rest : List RTreeNode) (b0 : BoundingBox),
      covers (rest.foldl (fun x c2 => x.expand c2.bounds) b0) b0 := by
  intro rest
  induction rest with
  | nil => exact fun b0 => covers_refl b0
  | cons c rest2 ih =>
    intro b0
    rw [List.foldl_cons]
    exact covers_trans (ih _) (expand_covers_left _ _)

/-- The internal-bounds fold covers every visited child's bounds. -/
theorem internalBoundsFold_covers_mem :
    ∀ (rest : List RTreeNode) (b0 : BoundingBox), ∀ c ∈ rest,
      covers (rest.foldl (fun x c2 => x.expand c2.bounds) b0) c.bounds := by
  intro rest
  induction rest with
  | nil => intro b0 c hc; cases hc
  | cons c0 rest2 ih =>
    intro b0 c hc
    rw [List.foldl_cons]
    rcases List.mem_cons.mp hc with rfl | hc2
    · exact covers_trans (internalBoundsFold_covers_acc rest2 _) (expand_covers_right _ _)
    · exact ih _ c hc2

/-- `internalBoundsFrom` covers every child. -/
theorem internalBoundsFrom_covers (old : BoundingBox) (cs : List RTreeNode) :
    ∀ c ∈ cs, covers (internalBoundsFrom old cs) c.bounds := by
  intro c hc
  match cs, hc with
  | c0 :: rest, hc =>
    unfold internalBoundsFrom
    rcases List.mem_cons.mp hc with rfl | hc2
    · exact internalBoundsFold_covers_acc rest c.bounds
    · exact internalBoundsFold_covers_mem rest c0.bounds c hc2

/-- The internal-bounds fold keeps coordinate bounds. -/
theorem internalBoundsFold_bounded :
    ∀ (rest : List RTreeNode) (b0 : BoundingBox), boundedBox bigM b0 →
      (∀ c ∈ rest, boundedBox bigM c.bounds) →
      boundedBox bigM (rest.foldl (fun x c2 => x.expand c2.bounds) b0) := by
  intro rest
  induction rest with
  | nil => exact fun b0 h _ => h
  | cons c rest2 ih =>
    intro b0 hb0 hcs
    rw [List.foldl_cons]
    exact ih _ (bounded_expand hb0 (hcs c (List.mem_cons_self ..)))
      (fun c2 hc2 => hcs c2 (List.mem_cons_of_mem c hc2))

/-- `internalBoundsFrom` keeps coordinate bounds. -/
theorem internalBoundsFrom_bounded (old : BoundingBox) (cs : List RTreeNode)
    (hold : boundedBox bigM old) (hcs : ∀ c ∈ cs, boundedBox bigM c.bounds) :
    boundedBox bigM (internalBoundsFrom old cs) := by
  match cs with
  | [] => exact hold
  | c0 :: rest =>
    unfold internalBoundsFrom
    exact internalBoundsFold_bounded rest c0.bounds (hcs c0 (List.mem_cons_self ..))
      (fun c hc => hcs c (List.mem_cons_of_mem c0 hc))

/-- A well-formed node has coordinate-bounded bounds. -/
theorem TreeOK.bounded {obs : List BoundingBox} {t : RTreeNode} (h : TreeOK obs t) :
    boundedBox bigM t.bounds := by
  cases h with
  | leaf hb _ => exact hb
  | internal _ hb _ _ => exact hb


/-! ### C2: induction principle, entries, best-child scan -/

/-- Simultaneous induction over a node and a child list, by size. -/
theorem nodeAndList_ind (P : RTreeNode → Prop) (Q : List RTreeNode → Prop)
    (hleaf : ∀ (bb : BoundingBox) (idxs : List Nat), P (.leaf bb idxs))
    (hinternal : ∀ (bb : BoundingBox) (cs : List RTreeNode), Q cs → P (.internal bb cs))
    (hnil : Q [])
    (hcons : ∀ (c : RTreeNode) (rest : List RTreeNode), P c → Q rest → Q (c :: rest)) :
    (∀ t, P t) ∧ (∀ cs, Q cs) := by
  have key : ∀ n : Nat, (∀ t : RTreeNode, sizeOf t ≤ n → P t) ∧
      (∀ cs : List RTreeNode, sizeOf cs ≤ n → Q cs) := by
    intro n
    induction n using Nat.strong_induction_on with
    | _ n ih =>
      constructor
      · intro t ht
        match t with
        | .leaf bb idxs => exact hleaf bb idxs
        | .internal bb cs =>
          refine hinternal bb cs ?_
          have h1 : sizeOf cs < sizeOf (RTreeNode.internal bb cs) := by
            simp only [RTreeNode.internal.sizeOf_spec]
            omega
          exact (ih (sizeOf cs) (lt_of_lt_of_le h1 ht)).2 cs (le_refl _)
      · intro cs hcs
        match cs with
        | [] => exact hnil
        | c :: rest =>
          have h1 : sizeOf c < sizeOf (c :: rest) := by
            simp only [List.cons.sizeOf_spec]
            omega
          have h2 : sizeOf rest < sizeOf (c :: rest) := by
            simp only [List.cons.sizeOf_spec]
            omega
          exact hcons c rest ((ih (sizeOf c) (lt_of_lt_of_le h1 hcs)).1 c (le_refl _))
            ((ih (sizeOf rest) (lt_of_lt_of_le h2 hcs)).2 rest (le_refl _))
  exact ⟨fun t => (key (sizeOf t)).1 t (le_refl _),
         fun cs => (key (sizeOf cs)).2 cs (le_refl _)⟩

/-- Entries of a concatenated child list. -/
theorem entriesList_append (l1 l2 : List RTreeNode) :
    RTreeNode.entriesList (l1 ++ l2) =
      RTreeNode.entriesList l1 ++ RTreeNode.entriesList l2 := by
  induction l1 with
  | nil => simp [RTreeNode.entriesList]
  | cons c rest ih =>
    rw [List.cons_append]
    rw [RTreeNode.entriesList, RTreeNode.entriesList, ih, List.append_assoc]

/-- Once the best-child fold has a candidate it keeps one. -/
theorem bestChildFold_keeps_some (cs : List RTreeNode) (bounds : BoundingBox) :
    ∀ (l : List (Fin cs.length)) (acc : Option (Fin cs.length) × ℚ),
      acc.1.isSome = true → ((l.foldl (bestChildStep cs bounds) acc).1).isSome = true := by
  intro l
  induction l with
  | nil => exact fun acc h => h
  | cons i rest ih =>
    intro acc h
    rw [List.foldl_cons]
    refine ih _ ?_
    simp only [bestChildStep]
    by_cases hlt : calculateEnlargement (cs.get i).bounds bounds < acc.2
    · rw [if_pos hlt]
      rfl
    · rw [if_neg hlt]
      exact h

/-- If the best-child fold ends with no candidate, it never took a step,
so every visited enlargement failed the initial `DBL_MAX` comparison. -/
theorem bestChildFold_none (cs : List RTreeNode) (bounds : BoundingBox) :
    ∀ (l : List (Fin cs.length)) (acc : Option (Fin cs.length) × ℚ),
      (l.foldl (bestChildStep cs bounds) acc).1 = none →
      l.foldl (bestChildStep cs bounds) acc = acc ∧
        ∀ i ∈ l, ¬(calculateEnlargement (cs.get i).bounds bounds < acc.2) := by
  intro l
  induction l with
  | nil =>
    intro acc h
    exact ⟨rfl, by intro i hi; cases hi⟩
  | cons i rest ih =>
    intro acc h
    rw [List.foldl_cons] at h ⊢
    by_cases hlt : calculateEnlargement (cs.get i).bounds bounds < acc.2
    · exfalso
      have hsome : (bestChildStep cs bounds acc i).1.isSome = true := by
        simp only [bestChildStep]
        rw [if_pos hlt]
        rfl
      have h2 := bestChildFold_keeps_some cs bounds rest _ hsome
      rw [h] at h2
      exact absurd h2 (by simp)
    · have hstep : bestChildStep cs bounds acc i = acc := by
        simp only [bestChildStep]
        rw [if_neg hlt]
      rw [hstep] at h ⊢
      rcases ih acc h with ⟨h1, h2⟩
      refine ⟨h1, ?_⟩
      intro i2 hi2
      rcases List.mem_cons.mp hi2 with rfl | hmem
      · exact hlt
      · exact h2 i2 hmem

/-- With a non-empty, coordinate-bounded child list the best-child scan
returns a child index (the source's `best_child` cannot stay null). -/
theorem bestChildIdx_some (cs : List RTreeNode) (bounds : BoundingBox)
    (hne : cs ≠ []) (hcs : ∀ c ∈ cs, boundedBox bigM c.bounds)
    (hb : boundedBox bigM bounds) : ∃ j, bestChildIdx cs bounds = some j := by
  rcases hres : bestChildIdx cs bounds with _ | j
  · exfalso
    unfold bestChildIdx at hres
    have h1 := bestChildFold_none cs bounds (List.finRange cs.length) (none, DBL_MAX) hres
    have hpos : 0 < cs.length := List.length_pos.mpr hne
    have h2 := h1.2 ⟨0, hpos⟩ (List.mem_finRange _)
    exact h2 (enlargement_lt_dblmax (hcs _ (List.get_mem cs 0 hpos)) hb)
  · exact ⟨j, rfl⟩


/-- Insertion preserves the R-tree invariant and appends exactly the new
data index to the stored entries (up to order): simultaneous statement
for `insertHelper` and `insertIntoChild`. -/
theorem insertHelper_preserves :
    (∀ t : RTreeNode, ∀ (obs : List BoundingBox) (maxE : Nat) (b : BoundingBox) (d : Nat),
      1 ≤ maxE → (∀ x ∈ obs, boundedBox bigM x) → boundedBox bigM b →
      d < obs.length → obs.getD d default = b → TreeOK obs t →
      TreeOK obs (insertHelper obs maxE b d t).1 ∧
      (∀ e, (insertHelper obs maxE b d t).2 = some e → TreeOK obs e) ∧
      ((insertHelper obs maxE b d t).1.entries ++
        entriesOpt (insertHelper obs maxE b d t).2).Perm (t.entries ++ [d])) ∧
    (∀ cs : List RTreeNode, ∀ (obs : List BoundingBox) (maxE : Nat) (b : BoundingBox)
      (d : Nat) (j : Nat),
      1 ≤ maxE → (∀ x ∈ obs, boundedBox bigM x) → boundedBox bigM b →
      d < obs.length → obs.getD d default = b →
      j < cs.length → (∀ c ∈ cs, TreeOK obs c) →
      (∀ c ∈ (insertIntoChild obs maxE b d cs j).1, TreeOK obs c) ∧
      (∀ e, (insertIntoChild obs maxE b d cs j).2 = some e → TreeOK obs e) ∧
      (insertIntoChild obs maxE b d cs j).1.length = cs.length ∧
      (RTreeNode.entriesList (insertIntoChild obs maxE b d cs j).1 ++
        entriesOpt (insertIntoChild obs maxE b d cs j).2).Perm
        (RTreeNode.entriesList cs ++ [d])) := by
  apply nodeAndList_ind
  · -- leaf node
    intro bb idxs obs maxE b d hmax hobs hbb hd hgd hok
    cases hok with
    | leaf hbnd hidx =>
    simp only [insertHelper]
    have hcover2 : ∀ i ∈ idxs ++ [d],
        i < obs.length ∧ covers (if (idxs ++ [d]).length = 1 then b else bb.expand b)
          (obs.getD i default) := by
      intro i hi
      by_cases h1 : (idxs ++ [d]).length = 1
      · have hnil : idxs = [] := by
          rcases idxs with _ | ⟨x, xs⟩
          · rfl
          · simp at h1
        subst hnil
        simp only [List.nil_append] at hi
        rcases List.mem_singleton.mp hi with rfl
        rw [if_pos h1, ← hgd]
        exact ⟨hd, covers_refl _⟩
      · rw [if_neg h1]
        rcases List.mem_append.mp hi with h2 | h2
        · rcases hidx i h2 with ⟨hr, hc⟩
          exact ⟨hr, covers_trans (expand_covers_left _ _) hc⟩
        · rcases List.mem_singleton.mp h2 with rfl
          refine ⟨hd, ?_⟩
          rw [← hgd]
          exact expand_covers_right _ _
    have hbnd2 : boundedBox bigM (if (idxs ++ [d]).length = 1 then b else bb.expand b) := by
      by_cases h1 : (idxs ++ [d]).length = 1
      · rw [if_pos h1]; exact hbb
      · rw [if_neg h1]; exact bounded_expand hbnd hbb
    by_cases hsplit : (idxs ++ [d]).length > maxE
    · rw [if_pos hsplit]
      unfold splitLeaf
      refine ⟨?_, ?_, ?_⟩
      · refine TreeOK.leaf (leafBoundsFrom_bounded _ _ _ hobs hbnd2) ?_
        intro i hi
        have hi2 : i ∈ idxs ++ [d] := (List.take_sublist _ _).subset hi
        exact ⟨(hcover2 i hi2).1,
          leafBoundsFrom_covers obs _ _ i hi (hcover2 i hi2).1⟩
      · intro e he
        injection he with he
        subst he
        refine TreeOK.leaf (leafBoundsFrom_bounded _ _ _ hobs bounded_default) ?_
        intro i hi
        have hi2 : i ∈ idxs ++ [d] := (List.drop_sublist _ _).subset hi
        exact ⟨(hcover2 i hi2).1,
          leafBoundsFrom_covers obs _ _ i hi (hcover2 i hi2).1⟩
      · simp only [RTreeNode.entries, entriesOpt]
        rw [List.take_append_drop]
    · rw [if_neg hsplit]
      refine ⟨TreeOK.leaf hbnd2 hcover2, ?_, ?_⟩
      · intro e he
        cases he
      · simp only [RTreeNode.entries, entriesOpt, List.append_nil]
        exact List.Perm.refl _
  · -- internal node
    intro bb cs hQ obs maxE b d hmax hobs hbb hd hgd hok
    cases hok with
    | internal hne hbnd hall hcov =>
    rcases bestChildIdx_some cs b hne (fun c hc => (hall c hc).bounded) hbb with ⟨j, hj⟩
    simp only [insertHelper, hj]
    have hlenpos : 0 < cs.length := List.length_pos.mpr hne
    split
    next cs1 heq =>
      -- the child absorbed the entry without splitting
      have hq := hQ obs maxE b d j.1 hmax hobs hbb hd hgd j.2 hall
      rw [heq] at hq
      rcases hq with ⟨hq1, hq2, hq3, hq4⟩
      refine ⟨?_, ?_, ?_⟩
      · refine TreeOK.internal ?_ ?_ hq1 (internalBoundsFrom_covers bb cs1)
        · intro h0
          rw [h0] at hq3
          simp at hq3
          omega
        · exact internalBoundsFrom_bounded bb cs1 hbnd (fun c hc => (hq1 c hc).bounded)
      · intro e he
        cases he
      · simp only [RTreeNode.entries, entriesOpt, List.append_nil] at hq4 ⊢
        exact hq4
    next cs1 e heq =>
      -- the child split; the sibling joins this node's child list
      have hq := hQ obs maxE b d j.1 hmax hobs hbb hd hgd j.2 hall
      rw [heq] at hq
      rcases hq with ⟨hq1, hq2, hq3, hq4⟩
      have hall2 : ∀ c ∈ cs1 ++ [e], TreeOK obs c := by
        intro c hc
        rcases List.mem_append.mp hc with h2 | h2
        · exact hq1 c h2
        · rcases List.mem_singleton.mp h2 with rfl
          exact hq2 c rfl
      have hlen2 : (cs1 ++ [e]).length = cs.length + 1 := by
        simp [hq3]
      have hperm2 : (RTreeNode.entriesList (cs1 ++ [e])).Perm
          (RTreeNode.entriesList cs ++ [d]) := by
        rw [entriesList_append]
        simp only [RTreeNode.entriesList, List.append_nil, entriesOpt] at hq4 ⊢
        exact hq4
      by_cases hsplit : (cs1 ++ [e]).length > maxE
      · rw [if_pos hsplit]
        unfold splitInternal
        have hp1 : 1 ≤ (cs1 ++ [e]).length / 2 := by omega
        have hp2 : (cs1 ++ [e]).length / 2 < (cs1 ++ [e]).length := by omega
        refine ⟨?_, ?_, ?_⟩
        · refine TreeOK.internal ?_ ?_ ?_ (internalBoundsFrom_covers _ _)
          · intro h0
            have h3 := congrArg List.length h0
            rw [List.length_take] at h3
            simp only [List.length_nil] at h3
            omega
          · exact internalBoundsFrom_bounded _ _ hbnd
              (fun c hc => ((hall2 c ((List.take_sublist _ _).subset hc)).bounded))
          · exact fun c hc => hall2 c ((List.take_sublist _ _).subset hc)
        · intro e2 he2
          injection he2 with he2
          subst he2
          refine TreeOK.internal ?_ ?_ ?_ (internalBoundsFrom_covers _ _)
          · intro h0
            have h3 := congrArg List.length h0
            rw [List.length_drop] at h3
            simp only [List.length_nil] at h3
            omega
          · exact internalBoundsFrom_bounded _ _ bounded_default
              (fun c hc => ((hall2 c ((List.drop_sublist _ _).subset hc)).bounded))
          · exact fun c hc => hall2 c ((List.drop_sublist _ _).subset hc)
        · simp only [RTreeNode.entries, entriesOpt]
          rw [← entriesList_append, List.take_append_drop]
          exact hperm2
      · rw [if_neg hsplit]
        refine ⟨?_, ?_, ?_⟩
        · refine TreeOK.internal ?_ ?_ hall2 (internalBoundsFrom_covers _ _)
          · intro h0
            have h3 := congrArg List.length h0
            rw [hlen2] at h3
            simp at h3
          · exact internalBoundsFrom_bounded _ _ hbnd
              (fun c hc => (hall2 c hc).bounded)
        · intro e2 he2
          cases he2
        · simp only [RTreeNode.entries, entriesOpt, List.append_nil]
          exact hperm2
  · -- empty child list: the index bound is vacuous
    intro obs maxE b d j _ _ _ _ _ hj _
    simp at hj
  · -- cons child list
    intro c rest hP hQ obs maxE b d j hmax hobs hbb hd hgd hj hall
    have hc0 : TreeOK obs c := hall c (List.mem_cons_self ..)
    have hrest : ∀ c2 ∈ rest, TreeOK obs c2 :=
      fun c2 hc2 => hall c2 (List.mem_cons_of_mem c hc2)
    rcases j with _ | j2
    · rcases hri : insertHelper obs maxE b d c with ⟨c2, extra⟩
      simp only [insertIntoChild, hri]
      have hp := hP obs maxE b d hmax hobs hbb hd hgd hc0
      rw [hri] at hp
      rcases hp with ⟨hp1, hp2, hp3⟩
      refine ⟨?_, ?_, ?_, ?_⟩
      · intro cn hcn
        rcases List.mem_cons.mp hcn with rfl | h2
        · exact hp1
        · exact hrest cn h2
      · exact hp2
      · simp
      · simp only [RTreeNode.entriesList]
        rw [List.append_assoc, List.append_assoc]
        refine List.Perm.trans (List.Perm.append_left _ List.perm_append_comm) ?_
        rw [← List.append_assoc]
        refine List.Perm.trans (hp3.append_right _) ?_
        rw [List.append_assoc]
        exact List.Perm.append_left _ List.perm_append_comm
    · rcases hri : insertIntoChild obs maxE b d rest j2 with ⟨rest2, extra⟩
      simp only [insertIntoChild, hri]
      have hj2 : j2 < rest.length := by
        simp at hj
        omega
      have hq := hQ obs maxE b d j2 hmax hobs hbb hd hgd hj2 hrest
      rw [hri] at hq
      rcases hq with ⟨hq1, hq2, hq3, hq4⟩
      refine ⟨?_, ?_, ?_, ?_⟩
      · intro cn hcn
        rcases List.mem_cons.mp hcn with rfl | h2
        · exact hc0
        · exact hq1 cn h2
      · exact hq2
      · simp [hq3]
      · simp only [RTreeNode.entriesList]
        rw [List.append_assoc, List.append_assoc]
        exact List.Perm.append_left _ hq4


/-- Every stored entry is in range and its box is covered by the node
bounds (and, for child lists, by some child's bounds). -/
theorem entries_covered :
    (∀ t : RTreeNode, ∀ obs : List BoundingBox, TreeOK obs t → ∀ i ∈ t.entries,
      i < obs.length ∧ covers t.bounds (obs.getD i default)) ∧
    (∀ cs : List RTreeNode, ∀ obs : List BoundingBox, (∀ c ∈ cs, TreeOK obs c) →
      ∀ i ∈ RTreeNode.entriesList cs,
      i < obs.length ∧ ∃ c ∈ cs, covers c.bounds (obs.getD i default)) := by
  apply nodeAndList_ind
  · intro bb idxs obs hok i hi
    cases hok with
    | leaf hbnd hidx =>
    simp only [RTreeNode.entries] at hi
    simpa only [RTreeNode.bounds] using hidx i hi
  · intro bb cs hQ obs hok i hi
    cases hok with
    | internal hne hbnd hall hcov =>
    simp only [RTreeNode.entries] at hi
    rcases hQ obs hall i hi with ⟨hr, c, hc, hcov2⟩
    exact ⟨hr, covers_trans (hcov c hc) hcov2⟩
  · intro obs _ i hi
    simp only [RTreeNode.entriesList] at hi
    cases hi
  · intro c rest hPc hQrest obs hall i hi
    simp only [RTreeNode.entriesList] at hi
    rcases List.mem_append.mp hi with h1 | h2
    · rcases hPc obs (hall c (List.mem_cons_self ..)) i h1 with ⟨hr, hcv⟩
      exact ⟨hr, c, List.mem_cons_self .., hcv⟩
    · rcases hQrest obs (fun x hx => hall x (List.mem_cons_of_mem c hx)) i h2 with
        ⟨hr, c2, hc2, hcv⟩
      exact ⟨hr, c2, List.mem_cons_of_mem c hc2, hcv⟩

/-- On invariant-satisfying trees the pruned recursive query computes
exactly the filter of the stored entries by box intersection: pruned
subtrees cannot contain an intersecting entry. -/
theorem query_eq_filter :
    (∀ t : RTreeNode, ∀ (obs : List BoundingBox) (q : BoundingBox), TreeOK obs t →
      queryHelper obs q t = t.entries.filter
        (fun i => decide (i < obs.length) && (obs.getD i default).intersects q)) ∧
    (∀ cs : List RTreeNode, ∀ (obs : List BoundingBox) (q : BoundingBox),
      (∀ c ∈ cs, TreeOK obs c) →
      queryHelperList obs q cs = (RTreeNode.entriesList cs).filter
        (fun i => decide (i < obs.length) && (obs.getD i default).intersects q)) := by
  apply nodeAndList_ind
  · intro bb idxs obs q hok
    simp only [queryHelper, RTreeNode.entries]
    by_cases hints : bb.intersects q = true
    · rw [if_pos hints]
    · rw [if_neg hints]
      symm
      rw [List.filter_eq_nil_iff]
      intro i hi hp
      cases hok with
      | leaf hbnd hidx =>
      have h1 : (obs.getD i default).intersects q = true := by
        have h2 : decide (i < obs.length) = true ∧
            (obs.getD i default).intersects q = true := by simpa using hp
        exact h2.2
      exact hints (intersects_mono (hidx i hi).2 h1)
  · intro bb cs hQ obs q hok
    cases hok with
    | internal hne hbnd hall hcov =>
    simp only [queryHelper, RTreeNode.entries]
    by_cases hints : bb.intersects q = true
    · rw [if_pos hints]
      exact hQ obs q hall
    · rw [if_neg hints]
      symm
      rw [List.filter_eq_nil_iff]
      intro i hi hp
      rcases entries_covered.2 cs obs hall i hi with ⟨hr, c, hc, hcv⟩
      have h1 : (obs.getD i default).intersects q = true := by
        have h2 : decide (i < obs.length) = true ∧
            (obs.getD i default).intersects q = true := by simpa using hp
        exact h2.2
      exact hints (intersects_mono (hcov c hc) (intersects_mono hcv h1))
  · intro obs q _
    simp [queryHelperList, RTreeNode.entriesList]
  · intro c rest hPc hQrest obs q hall
    simp only [queryHelperList, RTreeNode.entriesList]
    rw [List.filter_append, hPc obs q (hall c (List.mem_cons_self ..)),
        hQrest obs q (fun x hx => hall x (List.mem_cons_of_mem c hx))]

/-- Appending a box to the external array keeps the invariant. -/
theorem TreeOK_append (obs : List BoundingBox) (x : BoundingBox) (t : RTreeNode)
    (h : TreeOK obs t) : TreeOK (obs ++ [x]) t := by
  induction h with
  | leaf hbnd hidx =>
    refine TreeOK.leaf hbnd ?_
    intro i hi
    rcases hidx i hi with ⟨hr, hc⟩
    refine ⟨by simp only [List.length_append, List.length_singleton]; omega, ?_⟩
    rw [List.getD_append _ _ _ _ hr]
    exact hc
  | internal hne hbnd hall hcov ih =>
    exact TreeOK.internal hne hbnd ih hcov


/-- `RTree::insert` at the next sequential data index: the bbox array
grows by the box, the invariant transfers to the grown array, and the
entries gain exactly the new index. -/
theorem RTree_insert_ok (t : RTree) (b : BoundingBox) (hmax : 1 ≤ t.max_entries)
    (hobs : ∀ x ∈ t.object_bounds, boundedBox bigM x) (hb : boundedBox bigM b)
    (hok : TreeOK t.object_bounds t.root) :
    (t.insert b t.object_bounds.length).object_bounds = t.object_bounds ++ [b] ∧
    (t.insert b t.object_bounds.length).max_entries = t.max_entries ∧
    TreeOK (t.object_bounds ++ [b]) (t.insert b t.object_bounds.length).root ∧
    ((t.insert b t.object_bounds.length).root.entries).Perm
      (t.root.entries ++ [t.object_bounds.length]) := by
  have hobs2 : ∀ x ∈ t.object_bounds ++ [b], boundedBox bigM x := by
    intro x hx
    rcases List.mem_append.mp hx with h1 | h1
    · exact hobs x h1
    · rcases List.mem_singleton.mp h1 with rfl
      exact hb
  have hd : t.object_bounds.length < (t.object_bounds ++ [b]).length := by simp
  have hgd : (t.object_bounds ++ [b]).getD t.object_bounds.length default = b := by
    rw [List.getD_eq_getElem _ _ hd]
    exact List.getElem_concat_length _ _ _ rfl hd
  have hok2 : TreeOK (t.object_bounds ++ [b]) t.root := TreeOK_append _ _ _ hok
  have hp := insertHelper_preserves.1 t.root (t.object_bounds ++ [b]) t.max_entries b
    t.object_bounds.length hmax hobs2 hb hd hgd hok2
  rcases hri : insertHelper (t.object_bounds ++ [b]) t.max_entries b
      t.object_bounds.length t.root with ⟨r1, extra⟩
  rw [hri] at hp
  rcases hp with ⟨hp1, hp2, hp3⟩
  rcases extra with _ | r2
  · simp only [RTree.insert, hri]
    refine ⟨by trivial, by trivial, hp1, ?_⟩
    simpa only [entriesOpt, List.append_nil] using hp3
  · simp only [RTree.insert, hri]
    refine ⟨by trivial, by trivial, ?_, ?_⟩
    · refine TreeOK.internal (by simp) ?_ ?_ (internalBoundsFrom_covers _ _)
      · refine internalBoundsFrom_bounded _ _ bounded_default ?_
        intro c hc
        rcases List.mem_cons.mp hc with rfl | hc2
        · exact hp1.bounded
        · rcases List.mem_singleton.mp hc2 with rfl
          exact (hp2 c rfl).bounded
      · intro c hc
        rcases List.mem_cons.mp hc with rfl | hc2
        · exact hp1
        · rcases List.mem_singleton.mp hc2 with rfl
          exact hp2 c rfl
    · simp only [RTreeNode.entries, RTreeNode.entriesList, List.append_nil]
      simpa only [entriesOpt] using hp3

/-- State of `buildRTree` after the first `k` sequential inserts. -/
theorem buildRTree_prefix (maxE : Nat) (bs : List BoundingBox) (hmax : 1 ≤ maxE)
    (hbs : ∀ x ∈ bs, boundedBox bigM x) :
    ∀ k, k ≤ bs.length →
      ((List.range k).foldl (fun t i => t.insert (bs.getD i default) i)
        (RTree.new maxE)).object_bounds = bs.take k ∧
      ((List.range k).foldl (fun t i => t.insert (bs.getD i default) i)
        (RTree.new maxE)).max_entries = maxE ∧
      TreeOK (bs.take k) ((List.range k).foldl (fun t i => t.insert (bs.getD i default) i)
        (RTree.new maxE)).root ∧
      (((List.range k).foldl (fun t i => t.insert (bs.getD i default) i)
        (RTree.new maxE)).root.entries).Perm (List.range k) := by
  intro k
  induction k with
  | zero =>
    intro _
    refine ⟨rfl, rfl, ?_, by simp [RTree.new, RTreeNode.entries]⟩
    refine TreeOK.leaf bounded_default ?_
    intro i hi
    cases hi
  | succ k ih =>
    intro hk
    have hk2 : k ≤ bs.length := Nat.le_of_succ_le hk
    have hklt : k < bs.length := hk
    rcases ih hk2 with ⟨ih1, ih2, ih3, ih4⟩
    rw [List.range_succ, List.foldl_append]
    simp only [List.foldl_cons, List.foldl_nil]
    have hlen : ((List.range k).foldl (fun t i => t.insert (bs.getD i default) i)
        (RTree.new maxE)).object_bounds.length = k := by
      rw [ih1]
      exact List.length_take_of_le hk2
    have hmem : bs.getD k default ∈ bs := by
      rw [List.getD_eq_getElem _ _ hklt]
      exact List.getElem_mem hklt
    have hins := RTree_insert_ok
      ((List.range k).foldl (fun t i => t.insert (bs.getD i default) i) (RTree.new maxE))
      (bs.getD k default) (by rw [ih2]; exact hmax)
      (by rw [ih1]; intro x hx; exact hbs x ((List.take_subset _ _) hx))
      (hbs _ hmem) (by rw [ih1]; exact ih3)
    rw [hlen] at hins
    rcases hins with ⟨hi1, hi2, hi3, hi4⟩
    have htake : bs.take k ++ [bs.getD k default] = bs.take (k + 1) := by
      rw [List.getD_eq_getElem _ _ hklt, ← List.take_concat_get bs k hklt,
        List.concat_eq_append]
    refine ⟨?_, ?_, ?_, ?_⟩
    · rw [hi1, ih1, htake]
    · rw [hi2, ih2]
    · rw [← htake, ← ih1]
      exact hi3
    · exact hi4.trans (ih4.append_right _)

/-- C2: after N sequential `insert(bbox_i, i)` calls (distinct indices
`0..N-1`), `RTree::query(Q)` returns, without duplicates, exactly the
indices whose stored box intersects `Q` — in particular a query covering
every box returns all N indices.  Hypotheses: node capacity at least 1
(the constructor default is 16) and box coordinates within `2^510`
(finite-double territory where area arithmetic cannot reach the
`DBL_MAX` sentinel of the best-child scan). -/
theorem c2_rtree_query_set_semantics (maxE : Nat) (bs : List BoundingBox) (Q : BoundingBox)
    (hmax : 1 ≤ maxE) (hbs : ∀ x ∈ bs, boundedBox bigM x) :
    ((buildRTree maxE bs).query Q).Nodup ∧
    (∀ i, i ∈ (buildRTree maxE bs).query Q ↔
      (i < bs.length ∧ (bs.getD i default).intersects Q = true)) := by
  have hb := buildRTree_prefix maxE bs hmax hbs bs.length (le_refl _)
  rw [List.take_length] at hb
  rcases hb with ⟨hobs, hmaxE, hok, hperm⟩
  have hperm2 : ((buildRTree maxE bs).root.entries).Perm (List.range bs.length) := hperm
  have hquery : (buildRTree maxE bs).query Q =
      ((buildRTree maxE bs).root.entries).filter
        (fun i => decide (i < bs.length) && (bs.getD i default).intersects Q) := by
    unfold RTree.query buildRTree
    rw [hobs]
    exact query_eq_filter.1 _ bs Q hok
  rw [hquery]
  have hnodup : ((buildRTree maxE bs).root.entries).Nodup :=
    hperm2.nodup_iff.mpr (List.nodup_range _)
  refine ⟨hnodup.filter _, ?_⟩
  intro i
  rw [List.mem_filter]
  constructor
  · rintro ⟨hmem, hp⟩
    have h2 : decide (i < bs.length) = true ∧ (bs.getD i default).intersects Q = true := by
      simpa using hp
    exact ⟨of_decide_eq_true h2.1, h2.2⟩
  · rintro ⟨h1, h2⟩
    refine ⟨?_, ?_⟩
    · rw [hperm2.mem_iff]
      exact List.mem_range.mpr h1
    · have h3 : decide (i < bs.length) = true := decide_eq_true h1
      show (decide (i < bs.length) && (bs.getD i default).intersects Q) = true
      rw [h3, h2]
      rfl

/-- C2 witness: the statement at two concrete disjoint unit boxes and a
covering query box. -/
theorem c2_witness :
    ((buildRTree 16 c2_boxes).query c2_q).Nodup ∧
    (∀ i, i ∈ (buildRTree 16 c2_boxes).query c2_q ↔
      (i < c2_boxes.length ∧ (c2_boxes.getD i default).intersects c2_q = true)) :=
  c2_rtree_query_set_semantics 16 c2_boxes c2_q (by omega)
    (by
      intro x hx
      have h : ∀ q : ℚ, 0 ≤ q → q ≤ 3 → |q| ≤ bigM := by
        intro q h0 h3
        rw [abs_of_nonneg h0]
        refine le_trans h3 ?_
        unfold bigM
        norm_num
      rcases List.mem_cons.mp hx with rfl | hx2
      · exact ⟨h 0 (by norm_num) (by norm_num), h 0 (by norm_num) (by norm_num),
          h 1 (by norm_num) (by norm_num), h 1 (by norm_num) (by norm_num)⟩
      · rcases List.mem_singleton.mp hx2 with rfl
        exact ⟨h 2 (by norm_num) (by norm_num), h 2 (by norm_num) (by norm_num),
          h 3 (by norm_num) (by norm_num), h 3 (by norm_num) (by norm_num)⟩)

end
